import Mathlib

/-!
Verification development for the DumbBudget server (`server.js`), centred on its
recurring-transaction engine: `parseRecurringPattern`, the anchor-date adjustment
performed in the `POST /api/transactions` handler, `generateRecurringInstances`,
`getTransactionsInRange`, and the `PUT`/`DELETE /api/transactions/:id` handlers.

Modelling conventions (shallow embedding of the JavaScript source):
* JavaScript strings are embedded as `List Char` (named `Str` below).
* A JavaScript `Date` produced by `new Date(y, m, d)` is always at local
  midnight in this code base; we model it as a civil calendar date `CDate`
  (year/month/day, month 1-based in the canonical form).  The embedding assumes
  a UTC environment, so `toISOString().split('T')[0]` renders exactly the civil
  date held by the object and `getDay`/date comparisons agree with civil
  calendar arithmetic.
* `new Date(y, m, d)` normalises out-of-range month and day arguments
  (month overflow rolls into the year, day overflow rolls into later months);
  `jsMkDate` reproduces this normalisation.  `setDate`, `setMonth` and
  `setFullYear` are modelled by `jsSetDate`, `jsSetMonth`, `jsSetFullYear`.
* Date values stored in the transaction file are `YYYY-MM-DD` strings; the
  server totally orders them either by string comparison or by `Date`
  subtraction, which coincide on canonical dates, so stored dates are embedded
  directly as `CDate` and compared with `CDate.le`.
* The unbounded `while` loop of `generateRecurringInstances` is embedded with
  an explicit fuel parameter: `none` means the loop is still running after
  `fuel` iterations, `some` is the value actually returned by the JavaScript
  function.
-/

/-- JavaScript strings are modelled as lists of characters. -/
abbrev Str := List Char

/-- A civil calendar date; `m` is the 1-based month in canonical form.
Models a JavaScript `Date` at local midnight (see module docstring). -/
structure CDate where
  y : Int
  m : Int
  d : Int
deriving DecidableEq, Repr

/-- Number of days of month `m` (1-based) in year `y`, with the Gregorian
leap-year rule (what JS `Date` implements). -/
def daysInMonth (y m : Int) : Int :=
  if m = 2 then (if y % 4 = 0 ∧ (y % 100 ≠ 0 ∨ y % 400 = 0) then 29 else 28)
  else if m = 4 ∨ m = 6 ∨ m = 9 ∨ m = 11 then 30
  else 31

/-- `c` is a canonical civil date: month in 1..12, day in 1..`daysInMonth`. -/
def CDate.Canon (c : CDate) : Prop :=
  1 ≤ c.m ∧ c.m ≤ 12 ∧ 1 ≤ c.d ∧ c.d ≤ daysInMonth c.y c.m

instance (c : CDate) : Decidable c.Canon := by
  unfold CDate.Canon; exact inferInstance

/-- The calendar day after `c` (for canonical `c`). -/
def succDay (c : CDate) : CDate :=
  if c.d < daysInMonth c.y c.m then ⟨c.y, c.m, c.d + 1⟩
  else if c.m < 12 then ⟨c.y, c.m + 1, 1⟩
  else ⟨c.y + 1, 1, 1⟩

/-- The calendar day before `c` (for canonical `c`). -/
def predDay (c : CDate) : CDate :=
  if 1 < c.d then ⟨c.y, c.m, c.d - 1⟩
  else if 1 < c.m then ⟨c.y, c.m - 1, daysInMonth c.y (c.m - 1)⟩
  else ⟨c.y - 1, 12, 31⟩

/-- Add `k` days to a date. -/
def addDays (c : CDate) : Nat → CDate
  | 0 => c
  | k + 1 => succDay (addDays c k)

/-- Subtract `k` days from a date. -/
def subDays (c : CDate) : Nat → CDate
  | 0 => c
  | k + 1 => predDay (subDays c k)

/-- Chronological order on dates, i.e. the order JS `Date` comparison gives
for local-midnight dates; on canonical dates this is lexicographic. -/
def CDate.le (a b : CDate) : Prop :=
  a.y < b.y ∨ (a.y = b.y ∧ (a.m < b.m ∨ (a.m = b.m ∧ a.d ≤ b.d)))

/-- Strict chronological order on dates. -/
def CDate.lt (a b : CDate) : Prop :=
  a.y < b.y ∨ (a.y = b.y ∧ (a.m < b.m ∨ (a.m = b.m ∧ a.d < b.d)))

instance (a b : CDate) : Decidable (a.le b) := by
  unfold CDate.le; exact inferInstance

instance (a b : CDate) : Decidable (a.lt b) := by
  unfold CDate.lt; exact inferInstance

/-- `new Date(y, m, d)` with a 0-based month argument `m`: JS first normalises
the month into the year, then counts `d` days from the 1st of that month
(so `d = 0` is the last day of the previous month, etc.). -/
def jsMkDate (y m d : Int) : CDate :=
  let t := y * 12 + m
  let base : CDate := ⟨t / 12, t % 12 + 1, 1⟩
  if 1 ≤ d then addDays base (d - 1).toNat else subDays base (1 - d).toNat

/-- `date.setDate(n)`: replace the day-of-month by `n`, with JS rollover. -/
def jsSetDate (c : CDate) (n : Int) : CDate :=
  jsMkDate c.y (c.m - 1) n

/-- `date.setMonth(n)`: replace the (0-based) month by `n`, with JS rollover. -/
def jsSetMonth (c : CDate) (n : Int) : CDate :=
  jsMkDate c.y n c.d

/-- `date.setFullYear(n)`: replace the year by `n`, with JS rollover
(e.g. Feb 29 in a non-leap target year becomes Mar 1). -/
def jsSetFullYear (c : CDate) (n : Int) : CDate :=
  jsMkDate n (c.m - 1) c.d

/-- Day-number formula for the shifted year `yy` (the civil year, minus one
for January and February): era/year-of-era/day-of-year decomposition of the
proleptic Gregorian calendar. -/
def tdnAux (yy m d : Int) : Int :=
  (yy / 400) * 146097 +
    ((yy - yy / 400 * 400) * 365 + (yy - yy / 400 * 400) / 4 - (yy - yy / 400 * 400) / 100 +
      ((153 * ((m + 9) % 12) + 2) / 5 + d - 1)) - 719468

/-- Days since 1970-01-01 of a canonical civil date (Gregorian), the value
underlying JS `Date` timestamps at UTC midnight. -/
def toDayNumber (c : CDate) : Int :=
  if c.m ≤ 2 then tdnAux (c.y - 1) c.m c.d else tdnAux c.y c.m c.d

/-- `date.getDay()`: 0 = Sunday .. 6 = Saturday (1970-01-01 was a Thursday). -/
def getDay (c : CDate) : Int :=
  (toDayNumber c + 4) % 7

/-! ### Basic facts about the date model -/

theorem daysInMonth_bounds (y m : Int) :
    28 ≤ daysInMonth y m ∧ daysInMonth y m ≤ 31 := by
  unfold daysInMonth
  split
  · split <;> omega
  · split <;> omega

theorem CDate.le_refl (a : CDate) : a.le a := by
  unfold CDate.le; omega

theorem CDate.le_trans {a b c : CDate} (h1 : a.le b) (h2 : b.le c) : a.le c := by
  unfold CDate.le at *; omega

theorem CDate.lt_iff_not_le {a b : CDate} : a.lt b ↔ ¬ b.le a := by
  unfold CDate.lt CDate.le; omega

theorem CDate.lt_of_lt_of_le {a b c : CDate} (h1 : a.lt b) (h2 : b.le c) : a.lt c := by
  unfold CDate.lt CDate.le at *; omega

theorem CDate.le_of_lt {a b : CDate} (h : a.lt b) : a.le b := by
  unfold CDate.lt CDate.le at *; omega

theorem CDate.le_total (a b : CDate) : a.le b ∨ b.le a := by
  unfold CDate.le; omega

theorem succDay_canon {c : CDate} (hc : c.Canon) : (succDay c).Canon := by
  obtain ⟨y, m, d⟩ := c
  obtain ⟨h1, h2, h3, h4⟩ := hc
  have hb1 := daysInMonth_bounds y (m + 1)
  have hb2 := daysInMonth_bounds (y + 1) 1
  have hb3 := daysInMonth_bounds y m
  simp only [CDate.Canon] at *
  unfold succDay
  dsimp only
  split
  · dsimp only; omega
  · split <;> (dsimp only; omega)

theorem predDay_canon {c : CDate} (hc : c.Canon) : (predDay c).Canon := by
  obtain ⟨y, m, d⟩ := c
  obtain ⟨h1, h2, h3, h4⟩ := hc
  have hb1 := daysInMonth_bounds y (m - 1)
  have hb2 := daysInMonth_bounds (y - 1) 12
  have hb3 := daysInMonth_bounds y m
  have hb4 : daysInMonth (y - 1) 12 = 31 := by unfold daysInMonth; norm_num
  simp only [CDate.Canon] at *
  unfold predDay
  dsimp only
  split
  · dsimp only; omega
  · split <;> (dsimp only; omega)

theorem succDay_gt (c : CDate) : c.lt (succDay c) := by
  obtain ⟨y, m, d⟩ := c
  unfold succDay
  dsimp only
  split
  · unfold CDate.lt; dsimp only; omega
  · split <;> (unfold CDate.lt; dsimp only; omega)

theorem addDays_canon {c : CDate} (hc : c.Canon) (k : Nat) : (addDays c k).Canon := by
  induction k with
  | zero => exact hc
  | succ n ih => exact succDay_canon ih

theorem addDays_ge (c : CDate) (k : Nat) : c.le (addDays c k) := by
  induction k with
  | zero => exact CDate.le_refl c
  | succ n ih =>
      exact CDate.le_trans ih (CDate.le_of_lt (succDay_gt (addDays c n)))

theorem addDays_gt (c : CDate) (k : Nat) (hk : 1 ≤ k) : c.lt (addDays c k) := by
  cases k with
  | zero => omega
  | succ n =>
      clear hk
      induction n with
      | zero => exact succDay_gt c
      | succ p ih => exact CDate.lt_of_lt_of_le ih (CDate.le_of_lt (succDay_gt _))

theorem addDays_add (c : CDate) (a b : Nat) :
    addDays c (a + b) = addDays (addDays c a) b := by
  induction b with
  | zero => rfl
  | succ n ih =>
      show succDay (addDays c (a + n)) = succDay (addDays (addDays c a) n)
      rw [ih]

theorem subDays_canon {c : CDate} (hc : c.Canon) (k : Nat) : (subDays c k).Canon := by
  induction k with
  | zero => exact hc
  | succ n ih => exact predDay_canon ih

/-- Walking `k` days forward from the 1st stays inside the month as long as
`k + 1` does not exceed the month length. -/
theorem addDays_within_month (y m : Int) (k : Nat)
    (hk : (k : Int) + 1 ≤ daysInMonth y m) :
    addDays ⟨y, m, 1⟩ k = ⟨y, m, (k : Int) + 1⟩ := by
  induction k with
  | zero => rfl
  | succ n ih =>
      have hn : (n : Int) + 1 ≤ daysInMonth y m := by push_cast at hk ⊢; omega
      show succDay (addDays ⟨y, m, 1⟩ n) = _
      rw [ih hn]
      unfold succDay
      dsimp only
      rw [if_pos (by push_cast at hk ⊢; omega)]
      simp only [CDate.mk.injEq, true_and]
      push_cast
      ring

theorem jsMkDate_canon (y m d : Int) : (jsMkDate y m d).Canon := by
  unfold jsMkDate
  dsimp only
  have hb := daysInMonth_bounds ((y * 12 + m) / 12) ((y * 12 + m) % 12 + 1)
  have hbase : CDate.Canon ⟨(y * 12 + m) / 12, (y * 12 + m) % 12 + 1, 1⟩ := by
    unfold CDate.Canon; dsimp only; omega
  split
  · exact addDays_canon hbase _
  · exact subDays_canon hbase _

/-- `new Date(y, m-1, d)` of an in-range year/month/day is just that date:
the JS constructor performs no adjustment on canonical input. -/
theorem jsMkDate_canonical (y m d : Int) (h1 : 1 ≤ m) (h2 : m ≤ 12) (h3 : 1 ≤ d)
    (h4 : d ≤ daysInMonth y m) : jsMkDate y (m - 1) d = ⟨y, m, d⟩ := by
  unfold jsMkDate
  dsimp only
  rw [if_pos h3]
  have ht1 : (y * 12 + (m - 1)) / 12 = y := by omega
  have ht2 : (y * 12 + (m - 1)) % 12 + 1 = m := by omega
  rw [ht1, ht2]
  rw [addDays_within_month y m _ (by omega)]
  congr 1
  omega

/-- `date.setDate(date.getDate() + k)` adds exactly `k` days. -/
theorem jsSetDate_add (c : CDate) (hc : c.Canon) (k : Nat) :
    jsSetDate c (c.d + k) = addDays c k := by
  obtain ⟨y, m, d⟩ := c
  obtain ⟨h1, h2, h3, h4⟩ := hc
  dsimp only at h1 h2 h3 h4
  unfold jsSetDate jsMkDate
  dsimp only
  rw [if_pos (by omega)]
  have ht1 : (y * 12 + (m - 1)) / 12 = y := by omega
  have ht2 : (y * 12 + (m - 1)) % 12 + 1 = m := by omega
  rw [ht1, ht2]
  have hsplit : (d + (k : Int) - 1).toNat = (d - 1).toNat + k := by omega
  rw [hsplit, addDays_add]
  have hfirst : addDays ⟨y, m, 1⟩ (d - 1).toNat = ⟨y, m, d⟩ := by
    rw [addDays_within_month y m _ (by omega)]
    congr 1
    omega
  rw [hfirst]

/-- If the (0-based) total month count strictly increases, `new Date` lands
strictly after `c`, whatever the day argument (as long as it is ≥ 1). -/
theorem jsMkDate_gt_of_month_gt (c : CDate) (hc : c.Canon) (y m d : Int)
    (h : c.y * 12 + c.m - 1 < y * 12 + m) (hd : 1 ≤ d) :
    c.lt (jsMkDate y m d) := by
  obtain ⟨h1, h2, h3, h4⟩ := hc
  have hbase : c.lt ⟨(y * 12 + m) / 12, (y * 12 + m) % 12 + 1, 1⟩ := by
    unfold CDate.lt; dsimp only; omega
  have hle : CDate.le ⟨(y * 12 + m) / 12, (y * 12 + m) % 12 + 1, 1⟩ (jsMkDate y m d) := by
    unfold jsMkDate
    dsimp only
    rw [if_pos hd]
    exact addDays_ge _ _
  exact CDate.lt_of_lt_of_le hbase hle

/-! ### A termination measure for date-stepping loops -/

/-- Measure of how far `c` still is from the loop bound `untilD`; every
strictly date-increasing step decreases it by at least 1 while it stays
non-negative as long as `c ≤ untilD`. -/
def dateMeasure (untilD c : CDate) : Int :=
  (untilD.y - c.y) * 400 + (12 - c.m) * 31 + (31 - c.d)

theorem dateMeasure_nonneg (untilD c : CDate) (hc : c.Canon) (h : c.le untilD) :
    0 ≤ dateMeasure untilD c := by
  have hb := daysInMonth_bounds c.y c.m
  unfold dateMeasure CDate.le at *
  unfold CDate.Canon at hc
  omega

theorem dateMeasure_decr (untilD : CDate) {c c' : CDate} (hc : c.Canon) (hc' : c'.Canon)
    (h : c.lt c') : dateMeasure untilD c' ≤ dateMeasure untilD c - 1 := by
  have hb := daysInMonth_bounds c.y c.m
  have hb' := daysInMonth_bounds c'.y c'.m
  unfold dateMeasure CDate.lt at *
  unfold CDate.Canon at hc hc'
  omega

/-! ### Day numbers, day-of-week arithmetic -/

set_option maxHeartbeats 1000000 in
theorem toDayNumber_succDay (c : CDate) (hc : c.Canon) :
    toDayNumber (succDay c) = toDayNumber c + 1 := by
  obtain ⟨y, m, d⟩ := c
  obtain ⟨h1, h2, h3, h4⟩ := hc
  dsimp only at h1 h2 h3 h4
  unfold daysInMonth at h4
  unfold succDay daysInMonth
  dsimp only
  by_cases hm2 : m = 2
  · subst hm2
    norm_num at h4 ⊢
    unfold toDayNumber tdnAux
    split_ifs at h4 ⊢ <;> dsimp only at * <;> omega
  · by_cases hm30 : m = 4 ∨ m = 6 ∨ m = 9 ∨ m = 11
    · simp only [if_neg hm2, if_pos hm30] at h4 ⊢
      unfold toDayNumber tdnAux
      rcases hm30 with rfl | rfl | rfl | rfl <;>
        (split_ifs at h4 ⊢ <;> dsimp only at * <;> omega)
    · simp only [if_neg hm2, if_neg hm30] at h4 ⊢
      unfold toDayNumber tdnAux
      have hm' : m = 1 ∨ m = 3 ∨ m = 5 ∨ m = 7 ∨ m = 8 ∨ m = 10 ∨ m = 12 := by omega
      rcases hm' with rfl | rfl | rfl | rfl | rfl | rfl | rfl <;>
        (split_ifs at h4 ⊢ <;> dsimp only at * <;> omega)

theorem toDayNumber_addDays (c : CDate) (hc : c.Canon) (k : Nat) :
    toDayNumber (addDays c k) = toDayNumber c + k := by
  induction k with
  | zero => simp [addDays]
  | succ n ih =>
      show toDayNumber (succDay (addDays c n)) = _
      rw [toDayNumber_succDay _ (addDays_canon hc n), ih]
      push_cast
      ring

theorem getDay_bounds (c : CDate) : 0 ≤ getDay c ∧ getDay c < 7 := by
  unfold getDay
  omega

theorem getDay_addDays (c : CDate) (hc : c.Canon) (k : Nat) :
    getDay (addDays c k) = (getDay c + k) % 7 := by
  unfold getDay
  rw [toDayNumber_addDays c hc k]
  omega

/-! ### The recurrence-pattern parser (`parseRecurringPattern`, server.js 484-508)

The server matches two unanchored, case-sensitive regexes against the pattern
string:
  regular:   `every (\d+) (day|week|month|year)s?(?: on (\w+))?`
  month-day: `every (\d+)(?:st|nd|rd|th) of the month`
Both are embedded as deterministic matchers (`tryA`/`tryB` match at the start
of a string; `scanA`/`scanB` scan for the leftmost matching position, which is
what an unanchored JS regex does).  For these particular regexes greedy
matching never needs to backtrack: every `+`/`?` item is followed either by
nothing or by a character it can never consume. -/

/-- The unit captured by the regular regex, or `monthday` for grammar B. -/
inductive RUnit
  | day
  | week
  | month
  | year
  | monthday
deriving DecidableEq, Repr

/-- The parsed recurrence rule object returned by `parseRecurringPattern`. -/
structure Rule where
  interval : Int
  unit : RUnit
  dayOfWeek : Option Str
  dayOfMonth : Option Int
deriving DecidableEq, Repr

/-- `\d` of JS regexes. -/
def isDigitCh (c : Char) : Bool := '0' ≤ c && c ≤ '9'

/-- `\w` of JS regexes. -/
def isWordCh (c : Char) : Bool :=
  ('a' ≤ c && c ≤ 'z') || ('A' ≤ c && c ≤ 'Z') || isDigitCh c || c == '_'

/-- Match a literal at the front of a string, returning the remainder. -/
def stripLit : Str → Str → Option Str
  | [], rest => some rest
  | _ :: _, [] => none
  | p :: ps, c :: cs => if c = p then stripLit ps cs else none

/-- `parseInt` on a non-empty all-digit capture. -/
def digitsToInt (ds : Str) : Int :=
  ds.foldl (fun acc c => acc * 10 + ((c.toNat : Int) - 48)) 0

/-- The literal text of a unit token of the regular regex. -/
def unitTok : RUnit → Str
  | .day => "day".data
  | .week => "week".data
  | .month => "month".data
  | .year => "year".data
  | .monthday => []

/-- The alternation `(day|week|month|year)`, tried in regex order. -/
def tryUnitTok (l : Str) : Option (RUnit × Str) :=
  match stripLit "day".data l with
  | some r => some (.day, r)
  | none =>
    match stripLit "week".data l with
    | some r => some (.week, r)
    | none =>
      match stripLit "month".data l with
      | some r => some (.month, r)
      | none =>
        match stripLit "year".data l with
        | some r => some (.year, r)
        | none => none

/-- Match the regular regex at the start of `l`; returns the three captures
(digit run, unit, optional weekday word). -/
def tryA (l : Str) : Option (Str × RUnit × Option Str) :=
  match stripLit "every ".data l with
  | none => none
  | some r1 =>
    let ds := r1.takeWhile isDigitCh
    let r2 := r1.dropWhile isDigitCh
    if ds.isEmpty then none
    else
      match r2 with
      | ' ' :: r3 =>
        match tryUnitTok r3 with
        | none => none
        | some (u, r4) =>
          let r5 := match r4 with
            | 's' :: rest => rest
            | _ => r4
          match stripLit " on ".data r5 with
          | none => some (ds, u, none)
          | some r6 =>
            let ws := r6.takeWhile isWordCh
            if ws.isEmpty then some (ds, u, none) else some (ds, u, some ws)
      | _ => none

/-- Leftmost match of the regular regex anywhere in the string. -/
def scanA : Str → Option (Str × RUnit × Option Str)
  | [] => none
  | c :: cs =>
    match tryA (c :: cs) with
    | some r => some r
    | none => scanA cs

/-- The alternation `(?:st|nd|rd|th)`, tried in regex order. -/
def tryOrdinal (l : Str) : Option Str :=
  match stripLit "st".data l with
  | some r => some r
  | none =>
    match stripLit "nd".data l with
    | some r => some r
    | none =>
      match stripLit "rd".data l with
      | some r => some r
      | none => stripLit "th".data l

/-- Match the month-day regex at the start of `l`; returns the digit capture. -/
def tryB (l : Str) : Option Str :=
  match stripLit "every ".data l with
  | none => none
  | some r1 =>
    let ds := r1.takeWhile isDigitCh
    let r2 := r1.dropWhile isDigitCh
    if ds.isEmpty then none
    else
      match tryOrdinal r2 with
      | none => none
      | some r3 =>
        match stripLit " of the month".data r3 with
        | none => none
        | some _ => some ds

/-- Leftmost match of the month-day regex anywhere in the string. -/
def scanB : Str → Option Str
  | [] => none
  | c :: cs =>
    match tryB (c :: cs) with
    | some r => some r
    | none => scanB cs

/-- `toLowerCase()`. -/
def lowerStr (s : Str) : Str := s.map Char.toLower

/-- `parseRecurringPattern` (server.js 484-508): try the regular regex first,
then the month-day regex, else throw `Invalid recurring pattern`. -/
def parseRecurringPattern (pattern : Str) : Except Str Rule :=
  match scanA pattern with
  | some (ds, u, wd) =>
      .ok { interval := digitsToInt ds, unit := u,
            dayOfWeek := wd.map lowerStr, dayOfMonth := none }
  | none =>
    match scanB pattern with
    | some ds =>
        .ok { interval := 1, unit := .monthday, dayOfWeek := none,
              dayOfMonth := some (digitsToInt ds) }
    | none => .error "Invalid recurring pattern".data

/-- The weekday array of the server (0 = sunday .. 6 = saturday). -/
def weekdays : List Str :=
  ["sunday".data, "monday".data, "tuesday".data, "wednesday".data,
   "thursday".data, "friday".data, "saturday".data]

/-- `weekdays.indexOf(w)`: index of `w`, or `-1` when absent. -/
def weekdayIndex (w : Str) : Int :=
  match weekdays.findIdx? (fun s => s == w) with
  | some i => (i : Int)
  | none => -1

/-! ### Transaction store model

The store (`transactions.json`) is a JSON object keyed by `"YYYY-MM"` strings,
each month holding `income` and `expenses` arrays; embedded as an association
list in key-insertion order (JS object key order for such keys).  Monetary
amounts are embedded as integers (their arithmetic is irrelevant to the claims
below).  `YYYY-MM-DD` date strings are embedded as the `CDate` they denote. -/

/-- The `recurring` sub-object of a stored transaction (`untilDate` embeds
its `until` field, a reserved word in Lean). -/
structure RecInfo where
  pattern : Str
  untilDate : Option CDate
deriving DecidableEq, Repr

/-- A stored transaction record. -/
structure Txn where
  id : Str
  amount : Int
  description : Str
  category : Option Str
  date : CDate
  recurring : Option RecInfo
deriving DecidableEq, Repr

/-- One month of the store. -/
structure MonthData where
  income : List Txn
  expenses : List Txn
deriving DecidableEq, Repr

/-- The whole store. -/
abbrev Store := List (Str × MonthData)

/-- A transaction as returned by the read endpoints: the stored fields plus
the `type` tag (`ttype` here), and the recurring-instance fields (absent on
JS plain objects ≙ `false`/`none` here). -/
structure OutTxn where
  id : Str
  amount : Int
  description : Str
  category : Option Str
  date : CDate
  recurring : Option RecInfo
  ttype : Str
  isRecurringInstance : Bool
  recurringParentId : Option Str
deriving DecidableEq, Repr

/-- `{ ...t, type: ty }`. -/
def tagTxn (t : Txn) (ty : Str) : OutTxn :=
  { id := t.id, amount := t.amount, description := t.description,
    category := t.category, date := t.date, recurring := t.recurring,
    ttype := ty, isRecurringInstance := false, recurringParentId := none }

/-- Truthiness of `t.recurring?.pattern`. -/
def hasRecurringPattern (t : Txn) : Bool :=
  match t.recurring with
  | some r => ! r.pattern.isEmpty
  | none => false

/-- Decimal digits of a natural number. -/
def natToDigits (n : Nat) : Str := Nat.toDigits 10 n

/-- Zero-pad on the left to width `n`. -/
def padZero (n : Nat) (s : Str) : Str := List.replicate (n - s.length) '0' ++ s

/-- The `YYYY-MM-DD` rendering of a date (`toISOString().split('T')[0]`,
for common-era years). -/
def fmtDate (c : CDate) : Str :=
  padZero 4 (natToDigits c.y.toNat) ++ ['-'] ++ padZero 2 (natToDigits c.m.toNat)
    ++ ['-'] ++ padZero 2 (natToDigits c.d.toNat)

/-! ### `generateRecurringInstances` (server.js 511-614) -/

/-- The instance object pushed by the loop (server.js 581-587). -/
def mkInstance (t : OutTxn) (cur : CDate) : OutTxn :=
  { t with id := t.id ++ '-' :: fmtDate cur, date := cur,
           isRecurringInstance := true, recurringParentId := some t.id }

/-- One `switch (pattern.unit)` step of the loop (server.js 592-610). -/
def stepDate (pat : Rule) (cur : CDate) : CDate :=
  match pat.unit with
  | .day => jsSetDate cur (cur.d + pat.interval)
  | .week => jsSetDate cur (cur.d + pat.interval * 7)
  | .month => jsSetMonth cur (cur.m - 1 + pat.interval)
  | .year => jsSetFullYear cur (cur.y + pat.interval)
  | .monthday => jsSetMonth cur (cur.m - 1 + 1)

/-- The `while (currentDate <= until)` loop (server.js 573-611), with fuel:
`none` means the loop has not finished within `fuel` iterations. -/
def genLoop (pat : Rule) (parent : OutTxn) (untilD rangeStart rangeEnd : CDate) :
    Nat → CDate → List CDate → List OutTxn → Option (List OutTxn)
  | fuel, cur, added, acc =>
    if cur.le untilD then
      match fuel with
      | 0 => none
      | fuel' + 1 =>
        if rangeStart.le cur ∧ cur.le rangeEnd ∧ cur ∉ added then
          genLoop pat parent untilD rangeStart rangeEnd fuel' (stepDate pat cur)
            (cur :: added) (acc ++ [mkInstance parent cur])
        else
          genLoop pat parent untilD rangeStart rangeEnd fuel' (stepDate pat cur) added acc
    else some acc

/-- Truthiness of `pattern.dayOfWeek`. -/
def wdTruthy : Option Str → Bool
  | some w => ! w.isEmpty
  | none => false

/-- The pre-loop starting-date adjustment (server.js 517-567): month-day rules
start at the rule's day of the current month (next month if already past);
weekday rules shift forward to the target weekday and, for intervals > 1,
align the week relative to `rangeStart`. -/
def genStart (pat : Rule) (cur0 rangeStart : CDate) : CDate :=
  if pat.unit = .monthday then
    let c := jsMkDate cur0.y (cur0.m - 1) (pat.dayOfMonth.getD 0)
    if c.lt cur0 then jsSetMonth c (c.m - 1 + 1) else c
  else if pat.unit = .week ∧ wdTruthy pat.dayOfWeek then
    let targetDay := weekdayIndex (pat.dayOfWeek.getD [])
    let currentDay := getDay cur0
    let daysToAdd0 := targetDay - currentDay
    let daysToAdd := if daysToAdd0 < 0 then daysToAdd0 + 7 else daysToAdd0
    let c := jsSetDate cur0 (cur0.d + daysToAdd)
    if 1 < pat.interval then
      let weeksSinceStart := (toDayNumber c - toDayNumber rangeStart) / 7
      let remaining := Int.tmod weeksSinceStart pat.interval
      if remaining ≠ 0 then jsSetDate c (c.d + (pat.interval - remaining) * 7) else c
    else c
  else cur0

/-- `generateRecurringInstances(transaction, startDate, endDate)`
(server.js 511-614): `some (.ok is)` is a normal return, `some (.error e)` a
thrown `Invalid recurring pattern`, `none` fuel exhaustion (the JS loop is
still running). -/
def generateRecurringInstances (fuel : Nat) (t : OutTxn) (startD endD : CDate) :
    Option (Except Str (List OutTxn)) :=
  match t.recurring with
  | none => some (.ok [])
  | some r =>
    if r.pattern.isEmpty then some (.ok [])
    else
      match parseRecurringPattern r.pattern with
      | .error e => some (.error e)
      | .ok pat =>
        let cur0 := jsMkDate t.date.y (t.date.m - 1) t.date.d
        let rangeStart := jsMkDate startD.y (startD.m - 1) startD.d
        let rangeEnd := jsMkDate endD.y (endD.m - 1) endD.d
        let untilD := match r.untilDate with
          | some u => jsMkDate u.y (u.m - 1) u.d
          | none => rangeEnd
        (genLoop pat t untilD rangeStart rangeEnd fuel (genStart pat cur0 rangeStart)
          [] []).map Except.ok

/-! ### `getTransactionsInRange` and the range endpoints (server.js 280-323, 617-722) -/

/-- The plain transactions a month's `forEach` pushes onto `allTransactions`:
no truthy recurring pattern, and date within `[startD, endD]`
(server.js 286-312; the JS compares the `YYYY-MM-DD` strings, which orders
exactly like `CDate.le` on the dates they denote). -/
def plainOf (ty : Str) (startD endD : CDate) (ts : List Txn) : List OutTxn :=
  (ts.filter (fun t => !hasRecurringPattern t
      && decide (startD.le t.date) && decide (t.date.le endD))).map (fun t => tagTxn t ty)

/-- The transactions a month's `forEach` pushes onto `recurringTransactions`:
every transaction with a truthy recurring pattern, whatever its date. -/
def recurOf (ty : Str) (ts : List Txn) : List OutTxn :=
  (ts.filter (fun t => hasRecurringPattern t)).map (fun t => tagTxn t ty)

/-- `allTransactions` after the store walk (months in order, income before
expenses within a month). -/
def allPlain (store : Store) (startD endD : CDate) : List OutTxn :=
  (store.map (fun kv => plainOf "income".data startD endD kv.2.income
    ++ plainOf "expense".data startD endD kv.2.expenses)).flatten

/-- `recurringTransactions` after the store walk. -/
def allRecurring (store : Store) : List OutTxn :=
  (store.map (fun kv => recurOf "income".data kv.2.income
    ++ recurOf "expense".data kv.2.expenses)).flatten

/-- The `for (const transaction of recurringTransactions)` expansion loop
(server.js 315-318): concatenates the generated instances, propagating a
thrown `Invalid recurring pattern` and fuel exhaustion. -/
def expandAll (fuel : Nat) (startD endD : CDate) :
    List OutTxn → Option (Except Str (List OutTxn))
  | [] => some (.ok [])
  | t :: ts =>
    match generateRecurringInstances fuel t startD endD with
    | none => none
    | some (.error e) => some (.error e)
    | some (.ok is) =>
      match expandAll fuel startD endD ts with
      | none => none
      | some (.error e) => some (.error e)
      | some (.ok rest) => some (.ok (is ++ rest))

/-- Stable insertion into a list sorted descending by date. -/
def insertByDateDesc (x : OutTxn) : List OutTxn → List OutTxn
  | [] => [x]
  | y :: ys => if y.date.le x.date then x :: y :: ys else y :: insertByDateDesc x ys

/-- `sort((a, b) => new Date(b.date) - new Date(a.date))`: a stable sort by
descending date (ES2019 `Array.prototype.sort` is stable). -/
def sortByDateDesc : List OutTxn → List OutTxn
  | [] => []
  | x :: xs => insertByDateDesc x (sortByDateDesc xs)

/-- `getTransactionsInRange(startDate, endDate)` (server.js 280-323) on a
store snapshot. -/
def getTransactionsInRange (fuel : Nat) (store : Store) (startD endD : CDate) :
    Option (Except Str (List OutTxn)) :=
  match expandAll fuel startD endD (allRecurring store) with
  | none => none
  | some (.error e) => some (.error e)
  | some (.ok insts) =>
      some (.ok (sortByDateDesc (allPlain store startD endD ++ insts)))

/-- An HTTP error response. -/
structure ErrResp where
  status : Nat
  msg : Str
deriving DecidableEq, Repr

/-- `GET /api/transactions/range` (server.js 617-635): any throw inside
`getTransactionsInRange` is caught and mapped to a 500 response. -/
def rangeEndpoint (fuel : Nat) (store : Store) (startD endD : CDate) :
    Option (Except ErrResp (List OutTxn)) :=
  match getTransactionsInRange fuel store startD endD with
  | none => none
  | some (.error _) => some (.error ⟨500, "Failed to fetch transactions".data⟩)
  | some (.ok l) => some (.ok (sortByDateDesc l))

/-- The totals record of `GET /api/totals/range`. -/
structure Totals where
  income : Int
  expenses : Int
  balance : Int
deriving DecidableEq, Repr

/-- The totals computation of server.js 646-656. -/
def computeTotals (l : List OutTxn) : Totals :=
  let inc := ((l.filter (fun t => t.ttype == "income".data)).map (fun t => t.amount)).sum
  let exp := ((l.filter (fun t => t.ttype == "expense".data)).map (fun t => t.amount)).sum
  ⟨inc, exp, inc - exp⟩

/-- `GET /api/totals/range` (server.js 637-663). -/
def totalsRangeEndpoint (fuel : Nat) (store : Store) (startD endD : CDate) :
    Option (Except ErrResp Totals) :=
  match getTransactionsInRange fuel store startD endD with
  | none => none
  | some (.error _) => some (.error ⟨500, "Failed to calculate totals".data⟩)
  | some (.ok l) => some (.ok (computeTotals l))

/-- Escape a CSV description (server.js 709-710): double the double quotes,
wrap in quotes when the escaped text contains a comma. -/
def csvEscape (s : Str) : Str :=
  let esc := s.foldr (fun c acc => if c = '"' then '"' :: '"' :: acc else c :: acc) []
  if esc.contains ',' then '"' :: (esc ++ ['"']) else esc

/-- Decimal rendering of an integer. -/
def intToStr (n : Int) : Str :=
  if n < 0 then '-' :: natToDigits (-n).toNat else natToDigits n.toNat

/-- One CSV row of the range export (server.js 705-713). -/
def csvRowOf (t : OutTxn) : Str :=
  let category := if t.ttype == "income".data then "Income".data else t.category.getD []
  let value := if t.ttype == "income".data then t.amount else -t.amount
  category ++ [','] ++ fmtDate t.date ++ [','] ++ csvEscape t.description
    ++ [','] ++ intToStr value

/-- `GET /api/export/range` (server.js 694-722). -/
def exportRangeEndpoint (fuel : Nat) (store : Store) (startD endD : CDate) :
    Option (Except ErrResp Str) :=
  match getTransactionsInRange fuel store startD endD with
  | none => none
  | some (.error _) => some (.error ⟨500, "Failed to export transactions".data⟩)
  | some (.ok l) =>
      some (.ok (List.intercalate ['\n']
        ("Category,Date,Description,Value".data :: l.map csvRowOf)))

/-! ### The write handlers (server.js 326-437, 724-813, 815-860) -/

/-- A create/update request body.  `ttype` embeds the JS `type` field. -/
structure TxnBody where
  ttype : Str
  amount : Int
  description : Str
  category : Option Str
  date : CDate
  recurring : Option RecInfo
deriving DecidableEq, Repr

/-- Falsiness of the `category` field. -/
def catFalsy : Option Str → Bool
  | some c => c.isEmpty
  | none => true

/-- The weekday-anchor adjustment of the POST handler (server.js 358-373):
shift the proposed date forward to the rule's weekday. -/
def resolveWeekAnchor (date : CDate) (w : Str) : CDate :=
  let selectedDate := jsMkDate date.y (date.m - 1) date.d
  let targetDay := weekdayIndex w
  let currentDay := getDay selectedDate
  let daysToAdd0 := targetDay - currentDay
  let daysToAdd := if daysToAdd0 < 0 then daysToAdd0 + 7 else daysToAdd0
  jsSetDate selectedDate (selectedDate.d + daysToAdd)

/-- The month-day anchor adjustment of the POST handler (server.js 374-385):
this month's `dayOfMonth`, or next month's if that already passed. -/
def resolveMonthdayAnchor (date : CDate) (dom : Int) : CDate :=
  let selectedDate := jsMkDate date.y (date.m - 1) dom
  if selectedDate.lt (jsMkDate date.y (date.m - 1) date.d) then
    jsSetMonth selectedDate (selectedDate.m - 1 + 1)
  else selectedDate

/-- The `adjustedDate` computation of the POST handler (server.js 354-386). -/
def adjustedDateOf (body : TxnBody) : Except Str CDate :=
  match body.recurring with
  | none => .ok body.date
  | some r =>
    if r.pattern.isEmpty then .ok body.date
    else
      match parseRecurringPattern r.pattern with
      | .error e => .error e
      | .ok pat =>
        if pat.unit = .week ∧ wdTruthy pat.dayOfWeek then
          .ok (resolveWeekAnchor body.date (pat.dayOfWeek.getD []))
        else if pat.unit = .monthday then
          .ok (resolveMonthdayAnchor body.date (pat.dayOfMonth.getD 0))
        else .ok body.date

/-- The store key `${year}-${month}` derived from the adjusted date. -/
def monthKey (c : CDate) : Str :=
  padZero 4 (natToDigits c.y.toNat) ++ ['-'] ++ padZero 2 (natToDigits c.m.toNat)

/-- Push a transaction onto a month's income or expenses array. -/
def pushToMonth (md : MonthData) (isExpense : Bool) (t : Txn) : MonthData :=
  if isExpense then { md with expenses := md.expenses ++ [t] }
  else { md with income := md.income ++ [t] }

/-- Insert under `key`, initialising the month if absent (server.js 388-429). -/
def storeAdd : Store → Str → Bool → Txn → Store
  | [], key, isE, t => [(key, pushToMonth ⟨[], []⟩ isE t)]
  | (k, md) :: rest, key, isE, t =>
    if k = key then (k, pushToMonth md isE t) :: rest
    else (k, md) :: storeAdd rest key isE t

/-- `POST /api/transactions` (server.js 326-437); `newId` stands for the
`crypto.randomUUID()` result.  The recurring pattern is validated with the
same two regexes the parser uses (server.js 341-352). -/
def postTransaction (store : Store) (body : TxnBody) (newId : Str) :
    Except ErrResp (Store × Txn) :=
  if body.ttype.isEmpty || body.amount == 0 || body.description.isEmpty then
    .error ⟨400, "Missing required fields".data⟩
  else if body.ttype != "income".data && body.ttype != "expense".data then
    .error ⟨400, "Invalid transaction type".data⟩
  else if body.ttype == "expense".data && catFalsy body.category then
    .error ⟨400, "Category required for expenses".data⟩
  else if (match body.recurring with
      | some r => !r.pattern.isEmpty && !(scanA r.pattern).isSome && !(scanB r.pattern).isSome
      | none => false) then
    .error ⟨400, "Invalid recurring pattern format".data⟩
  else
    match adjustedDateOf body with
    | .error _ => .error ⟨500, "Failed to add transaction".data⟩
    | .ok adjDate =>
      let newTxn : Txn :=
        { id := newId, amount := body.amount, description := body.description,
          category := if body.ttype == "expense".data then body.category else none,
          date := adjDate,
          recurring := match body.recurring with
            | some r => if r.pattern.isEmpty then none else some r
            | none => none }
      .ok (storeAdd store (monthKey adjDate) (body.ttype == "expense".data) newTxn, newTxn)

/-- In-place income update of the PUT handler (server.js 762-768). -/
def updIncomeEntry (t : Txn) (body : TxnBody) : Txn :=
  { t with amount := body.amount, description := body.description,
           date := body.date, recurring := body.recurring }

/-- Income-to-expense move of the PUT handler (server.js 751-760). -/
def movedToExpense (t : Txn) (body : TxnBody) : Txn :=
  { t with category := body.category, amount := body.amount,
           description := body.description, date := body.date,
           recurring := body.recurring }

/-- In-place expense update of the PUT handler (server.js 789-796). -/
def updExpenseEntry (t : Txn) (body : TxnBody) : Txn :=
  { t with amount := body.amount, description := body.description,
           category := body.category, date := body.date,
           recurring := body.recurring }

/-- Expense-to-income move of the PUT handler (server.js 778-787). -/
def movedToIncome (t : Txn) (body : TxnBody) : Txn :=
  { t with category := none, amount := body.amount,
           description := body.description, date := body.date,
           recurring := body.recurring }

/-- Walk the income array for `id` (server.js 748-772): on a hit, either an
in-place update or removal plus the transaction to append to expenses. -/
def putIncome : List Txn → Str → TxnBody → Option (List Txn × Option Txn)
  | [], _, _ => none
  | t :: ts, id, body =>
    if t.id = id then
      if body.ttype == "expense".data then some (ts, some (movedToExpense t body))
      else some (updIncomeEntry t body :: ts, none)
    else
      match putIncome ts id body with
      | none => none
      | some (ts', mv) => some (t :: ts', mv)

/-- Walk the expenses array for `id` (server.js 775-800). -/
def putExpenses : List Txn → Str → TxnBody → Option (List Txn × Option Txn)
  | [], _, _ => none
  | t :: ts, id, body =>
    if t.id = id then
      if body.ttype == "income".data then some (ts, some (movedToIncome t body))
      else some (updExpenseEntry t body :: ts, none)
    else
      match putExpenses ts id body with
      | none => none
      | some (ts', mv) => some (t :: ts', mv)

/-- Apply the PUT update inside one month (income array first). -/
def putMonth (md : MonthData) (id : Str) (body : TxnBody) : Option MonthData :=
  match putIncome md.income id body with
  | some (inc', mv) =>
      some { income := inc',
             expenses := md.expenses ++ (match mv with | some t => [t] | none => []) }
  | none =>
    match putExpenses md.expenses id body with
    | some (exp', mv) =>
        some { income := md.income ++ (match mv with | some t => [t] | none => []),
               expenses := exp' }
    | none => none

/-- Apply the PUT update to the first month containing `id` (the JS loop
breaks on the first hit). -/
def putStore : Store → Str → TxnBody → Option Store
  | [], _, _ => none
  | (k, md) :: rest, id, body =>
    match putMonth md id body with
    | some md' => some ((k, md') :: rest)
    | none =>
      match putStore rest id body with
      | none => none
      | some rest' => some ((k, md) :: rest')

/-- `PUT /api/transactions/:id` (server.js 724-813).  Unlike the POST handler
it performs no validation of `recurring.pattern`. -/
def putTransaction (store : Store) (id : Str) (body : TxnBody) :
    Except ErrResp Store :=
  if body.ttype.isEmpty || body.amount == 0 || body.description.isEmpty then
    .error ⟨400, "Missing required fields".data⟩
  else if body.ttype != "income".data && body.ttype != "expense".data then
    .error ⟨400, "Invalid transaction type".data⟩
  else if body.ttype == "expense".data && catFalsy body.category then
    .error ⟨400, "Category required for expenses".data⟩
  else
    match putStore store id body with
    | none => .error ⟨404, "Transaction not found".data⟩
    | some store' => .ok store'

/-- `id.split('-')[0]`. -/
def splitFirstDash (id : Str) : Str := id.takeWhile (fun c => c != '-')

/-- The DELETE match condition (server.js 830-843): a stored transaction
matches when its id equals the requested id or the derived parent id. -/
def delMatches (reqId parentId : Str) (t : Txn) : Bool :=
  t.id == parentId || t.id == reqId

/-- Remove the first list element satisfying `p` (`findIndex` + `splice`). -/
def removeFirst (p : Txn → Bool) : List Txn → Option (List Txn)
  | [] => none
  | t :: ts =>
    if p t then some ts
    else
      match removeFirst p ts with
      | none => none
      | some ts' => some (t :: ts')

/-- DELETE within one month: income array first, then expenses. -/
def delMonth (md : MonthData) (reqId parentId : Str) : Option MonthData :=
  match removeFirst (delMatches reqId parentId) md.income with
  | some inc' => some { md with income := inc' }
  | none =>
    match removeFirst (delMatches reqId parentId) md.expenses with
    | some exp' => some { md with expenses := exp' }
    | none => none

/-- DELETE across the months, first hit wins (the JS loop breaks). -/
def delStore : Store → Str → Str → Option Store
  | [], _, _ => none
  | (k, md) :: rest, reqId, parentId =>
    match delMonth md reqId parentId with
    | some md' => some ((k, md') :: rest)
    | none =>
      match delStore rest reqId parentId with
      | none => none
      | some rest' => some ((k, md) :: rest')

/-- `DELETE /api/transactions/:id` (server.js 815-860): ids containing a dash
are treated as recurring-instance ids, with the parent id taken as the part
before the first dash. -/
def deleteTransaction (store : Store) (id : Str) : Except ErrResp Store :=
  let parentId := if id.contains '-' then splitFirstDash id else id
  match delStore store id parentId with
  | none => .error ⟨404, "Transaction not found".data⟩
  | some store' => .ok store'

/-! ### Claim-level developments -/

set_option maxRecDepth 100000

instance {ε α : Type} [DecidableEq ε] [DecidableEq α] : DecidableEq (Except ε α) := fun x y =>
  match x, y with
  | .ok a, .ok b =>
      if h : a = b then isTrue (by rw [h]) else isFalse (fun he => h (Except.ok.inj he))
  | .error a, .error b =>
      if h : a = b then isTrue (by rw [h]) else isFalse (fun he => h (Except.error.inj he))
  | .ok _, .error _ => isFalse (fun he => Except.noConfusion he)
  | .error _, .ok _ => isFalse (fun he => Except.noConfusion he)

/-- Convenience projection: the dates of an expansion result. -/
def expansionDates (r : Option (Except Str (List OutTxn))) : Option (Except Str (List CDate)) :=
  r.map (Except.map (fun l => l.map (fun i => i.date)))

/-- C1 (counterexample): `parseRecurringPattern` accepts `"every 0 days"`
(interval 0), accepts the pattern as a substring of arbitrary text, and
accepts a weekday clause with a non-week unit — all of which the claim's
grammar excludes ("N must be a positive integer (so 0 is rejected)", the
weekday clause legal only for `week`, and everything outside the grammars
rejected). -/
theorem claimC1_counterexample :
    parseRecurringPattern "every 0 days".data =
      .ok { interval := 0, unit := .day, dayOfWeek := none, dayOfMonth := none } ∧
    parseRecurringPattern "xx every 1 day yy".data =
      .ok { interval := 1, unit := .day, dayOfWeek := none, dayOfMonth := none } ∧
    parseRecurringPattern "every 2 day on monday".data =
      .ok { interval := 2, unit := .day, dayOfWeek := some "monday".data, dayOfMonth := none } :=
  ⟨rfl, rfl, rfl⟩

/-- The transaction of the C4 counterexample: anchored 2025-01-15 with
pattern `every 31st of the month`. -/
def monthday31Txn : OutTxn :=
  { id := "p31".data, amount := 50, description := "rent".data, category := none,
    date := ⟨2025, 1, 15⟩, recurring := some ⟨"every 31st of the month".data, none⟩,
    ttype := "income".data, isRecurringInstance := false, recurringParentId := none }

/-- C4 (counterexample): expanding `"every 31st of the month"` from
2025-01-15 over [2025-01-01, 2025-05-31] yields 2025-01-31, 2025-03-03,
2025-04-03, 2025-05-03: stepping Jan 31 by one month lands on the
non-existent Feb 31, which JS rolls over to Mar 3, and every later
occurrence stays on the 3rd — not on day-of-month 31 as the claim states. -/
theorem claimC4_counterexample :
    parseRecurringPattern "every 31st of the month".data =
      .ok { interval := 1, unit := .monthday, dayOfWeek := none, dayOfMonth := some 31 } ∧
    expansionDates (generateRecurringInstances 10 monthday31Txn ⟨2025, 1, 1⟩ ⟨2025, 5, 31⟩) =
      some (.ok [⟨2025, 1, 31⟩, ⟨2025, 3, 3⟩, ⟨2025, 4, 3⟩, ⟨2025, 5, 3⟩]) ∧
    ¬ (∀ c ∈ [(⟨2025, 1, 31⟩ : CDate), ⟨2025, 3, 3⟩, ⟨2025, 4, 3⟩, ⟨2025, 5, 3⟩], c.d = 31) :=
  ⟨by decide, by decide, by decide⟩

/-- The transaction of the C6 scenario: stored (already-adjusted) date
2025-02-03 and pattern `every 2 week on monday`. -/
def biweeklyTxn : OutTxn :=
  { id := "bi".data, amount := 50, description := "gym".data, category := none,
    date := ⟨2025, 2, 3⟩, recurring := some ⟨"every 2 week on monday".data, none⟩,
    ttype := "income".data, isRecurringInstance := false, recurringParentId := none }

/-- C6: 2025-02-01 is a Saturday (`getDay = 6`); the POST-handler anchor
adjustment for `"every 2 week on monday"` moves it to Monday 2025-02-03; and
expanding from that anchor over [2025-02-01, 2025-03-10] yields exactly
2025-02-03, 2025-02-17 and 2025-03-03 in order (in particular neither
2025-02-10 nor 2025-02-24). -/
theorem claimC6_scenario :
    getDay ⟨2025, 2, 1⟩ = 6 ∧
    parseRecurringPattern "every 2 week on monday".data =
      .ok { interval := 2, unit := .week, dayOfWeek := some "monday".data, dayOfMonth := none } ∧
    resolveWeekAnchor ⟨2025, 2, 1⟩ "monday".data = ⟨2025, 2, 3⟩ ∧
    expansionDates (generateRecurringInstances 10 biweeklyTxn ⟨2025, 2, 1⟩ ⟨2025, 3, 10⟩) =
      some (.ok [⟨2025, 2, 3⟩, ⟨2025, 2, 17⟩, ⟨2025, 3, 3⟩]) ∧
    (⟨2025, 2, 10⟩ : CDate) ∉ [(⟨2025, 2, 3⟩ : CDate), ⟨2025, 2, 17⟩, ⟨2025, 3, 3⟩] ∧
    (⟨2025, 2, 24⟩ : CDate) ∉ [(⟨2025, 2, 3⟩ : CDate), ⟨2025, 2, 17⟩, ⟨2025, 3, 3⟩] :=
  ⟨by decide, by decide, by decide, by decide, by decide, by decide⟩

/-- If one loop step leaves the current date unchanged while it is still
within the bound, the generation loop never finishes, whatever the fuel. -/
theorem genLoop_stuck (pat : Rule) (parent : OutTxn) (untilD rS rE : CDate) (cur : CDate)
    (hstep : stepDate pat cur = cur) (hle : cur.le untilD) :
    ∀ fuel added acc, genLoop pat parent untilD rS rE fuel cur added acc = none := by
  intro fuel
  induction fuel with
  | zero =>
      intro added acc
      unfold genLoop
      rw [if_pos hle]
  | succ n ih =>
      intro added acc
      unfold genLoop
      rw [if_pos hle]
      dsimp only
      split
      · rw [hstep]; exact ih _ _
      · rw [hstep]; exact ih _ _

/-- The transaction of the C2 counterexample: pattern `every 0 days`. -/
def zeroDayTxn : OutTxn :=
  { id := "z0".data, amount := 1, description := "sub".data, category := none,
    date := ⟨2025, 1, 1⟩, recurring := some ⟨"every 0 days".data, none⟩,
    ttype := "income".data, isRecurringInstance := false, recurringParentId := none }

/-- C2 (counterexample): `"every 0 days"` parses successfully (interval 0),
and expanding the resulting rule never terminates: stepping adds 0 days, so
the `while (currentDate <= until)` loop runs forever (in the fuel model, no
amount of fuel finishes). -/
theorem claimC2_counterexample :
    parseRecurringPattern "every 0 days".data =
      .ok { interval := 0, unit := .day, dayOfWeek := none, dayOfMonth := none } ∧
    ∀ fuel, generateRecurringInstances fuel zeroDayTxn ⟨2025, 1, 1⟩ ⟨2025, 1, 2⟩ = none := by
  constructor
  · rfl
  · intro fuel
    have heq : generateRecurringInstances fuel zeroDayTxn ⟨2025, 1, 1⟩ ⟨2025, 1, 2⟩ =
        (genLoop { interval := 0, unit := .day, dayOfWeek := none, dayOfMonth := none }
          zeroDayTxn ⟨2025, 1, 2⟩ ⟨2025, 1, 1⟩ ⟨2025, 1, 2⟩ fuel ⟨2025, 1, 1⟩ [] []).map
          Except.ok := rfl
    rw [heq,
      genLoop_stuck _ zeroDayTxn ⟨2025, 1, 2⟩ ⟨2025, 1, 1⟩ ⟨2025, 1, 2⟩ ⟨2025, 1, 1⟩
        (by decide) (by decide) fuel [] []]
    rfl

/-- Canonicity of every `jsSetDate` result. -/
theorem jsSetDate_canon (c : CDate) (n : Int) : (jsSetDate c n).Canon :=
  jsMkDate_canon c.y (c.m - 1) n

/-- Canonicity of every `jsSetMonth` result. -/
theorem jsSetMonth_canon (c : CDate) (n : Int) : (jsSetMonth c n).Canon :=
  jsMkDate_canon c.y n c.d

/-- Canonicity of every `jsSetFullYear` result. -/
theorem jsSetFullYear_canon (c : CDate) (n : Int) : (jsSetFullYear c n).Canon :=
  jsMkDate_canon n (c.m - 1) c.d

/-- `new Date` of a canonical date's own components is the identity. -/
theorem jsMkDate_id (c : CDate) (hc : c.Canon) : jsMkDate c.y (c.m - 1) c.d = c := by
  obtain ⟨y, m, d⟩ := c
  obtain ⟨h1, h2, h3, h4⟩ := hc
  exact jsMkDate_canonical y m d h1 h2 h3 h4

/-- For a positive interval, every loop step moves the current date strictly
forward (and keeps it canonical). -/
theorem stepDate_gt (pat : Rule) (hint : 1 ≤ pat.interval) (cur : CDate) (hc : cur.Canon) :
    cur.lt (stepDate pat cur) ∧ (stepDate pat cur).Canon := by
  obtain ⟨hm1, hm2, hd1, hd4⟩ := hc
  cases hu : pat.unit
  case day =>
    have h7 : stepDate pat cur = jsSetDate cur (cur.d + pat.interval) := by
      unfold stepDate; rw [hu]
    have hcast : cur.d + pat.interval = cur.d + (pat.interval.toNat : Int) := by omega
    rw [h7, hcast, jsSetDate_add cur ⟨hm1, hm2, hd1, hd4⟩ pat.interval.toNat]
    exact ⟨addDays_gt cur _ (by omega), addDays_canon ⟨hm1, hm2, hd1, hd4⟩ _⟩
  case week =>
    have h7 : stepDate pat cur = jsSetDate cur (cur.d + pat.interval * 7) := by
      unfold stepDate; rw [hu]
    have hcast : cur.d + pat.interval * 7 = cur.d + ((pat.interval * 7).toNat : Int) := by
      omega
    rw [h7, hcast, jsSetDate_add cur ⟨hm1, hm2, hd1, hd4⟩ (pat.interval * 7).toNat]
    exact ⟨addDays_gt cur _ (by omega), addDays_canon ⟨hm1, hm2, hd1, hd4⟩ _⟩
  case month =>
    have h7 : stepDate pat cur = jsMkDate cur.y (cur.m - 1 + pat.interval) cur.d := by
      unfold stepDate jsSetMonth; rw [hu]
    rw [h7]
    exact ⟨jsMkDate_gt_of_month_gt cur ⟨hm1, hm2, hd1, hd4⟩ _ _ _ (by omega) hd1,
      jsMkDate_canon _ _ _⟩
  case year =>
    have h7 : stepDate pat cur = jsMkDate (cur.y + pat.interval) (cur.m - 1) cur.d := by
      unfold stepDate jsSetFullYear; rw [hu]
    rw [h7]
    exact ⟨jsMkDate_gt_of_month_gt cur ⟨hm1, hm2, hd1, hd4⟩ _ _ _ (by omega) hd1,
      jsMkDate_canon _ _ _⟩
  case monthday =>
    have h7 : stepDate pat cur = jsMkDate cur.y (cur.m - 1 + 1) cur.d := by
      unfold stepDate jsSetMonth; rw [hu]
    rw [h7]
    exact ⟨jsMkDate_gt_of_month_gt cur ⟨hm1, hm2, hd1, hd4⟩ _ _ _ (by omega) hd1,
      jsMkDate_canon _ _ _⟩

/-- With strictly-forward stepping, fuel exceeding the date measure finishes
the loop normally. -/
theorem genLoop_term (pat : Rule) (parent : OutTxn) (untilD rS rE : CDate)
    (hstep : ∀ c : CDate, c.Canon → c.lt (stepDate pat c) ∧ (stepDate pat c).Canon) :
    ∀ (fuel : Nat) (cur : CDate) (added : List CDate) (acc : List OutTxn),
      cur.Canon → dateMeasure untilD cur < fuel →
      ∃ l, genLoop pat parent untilD rS rE fuel cur added acc = some l := by
  intro fuel
  induction fuel with
  | zero =>
      intro cur added acc hc hm
      have hn : ¬ cur.le untilD := by
        intro hle
        have := dateMeasure_nonneg untilD cur hc hle
        omega
      refine ⟨acc, ?_⟩
      unfold genLoop
      rw [if_neg hn]
  | succ n ih =>
      intro cur added acc hc hm
      by_cases hle : cur.le untilD
      · obtain ⟨hlt, hcan⟩ := hstep cur hc
        have hm' : dateMeasure untilD (stepDate pat cur) < n := by
          have hd := dateMeasure_decr untilD hc hcan hlt
          have hnn := dateMeasure_nonneg untilD cur hc hle
          omega
        unfold genLoop
        rw [if_pos hle]
        dsimp only
        split
        · exact ih (stepDate pat cur) _ _ hcan hm'
        · exact ih (stepDate pat cur) _ _ hcan hm'
      · refine ⟨acc, ?_⟩
        unfold genLoop
        rw [if_neg hle]

/-- The pre-loop starting date is always canonical. -/
theorem genStart_canon (pat : Rule) (c0 rS : CDate) (hc : c0.Canon) :
    (genStart pat c0 rS).Canon := by
  unfold genStart
  dsimp only
  split_ifs <;>
    first
      | exact jsSetMonth_canon _ _
      | exact jsSetDate_canon _ _
      | exact jsMkDate_canon _ _ _
      | exact hc

/-- Packaged termination: for a positive interval the loop finishes for some
fuel, whatever the bounds and canonical start. -/
theorem genLoop_term_exists (pat : Rule) (parent : OutTxn) (untilD rS rE start : CDate)
    (hint : 1 ≤ pat.interval) (hst : start.Canon) :
    ∃ (fuel : Nat) (l : List OutTxn),
      genLoop pat parent untilD rS rE fuel start [] [] = some l := by
  obtain ⟨l, hl⟩ := genLoop_term pat parent untilD rS rE
    (fun c hc => stepDate_gt pat hint c hc)
    ((dateMeasure untilD start).toNat + 1) start [] [] hst (by omega)
  exact ⟨_, l, hl⟩

/-- C2 (amended): for every rule produced by `parseRecurringPattern` whose
interval is positive (which includes every month-day rule, whose interval is
fixed at 1 — but not every parsed rule, since `"every 0 days"` parses, see
the counterexample), and for every anchor, until bound and query window, the
expansion loop terminates and returns a finite instance list. -/
theorem claimC2_amended (t : OutTxn) (startD endD : CDate) (r : RecInfo) (pat : Rule)
    (hrec : t.recurring = some r) (hparse : parseRecurringPattern r.pattern = .ok pat)
    (hint : 1 ≤ pat.interval) :
    ∃ (fuel : Nat) (out : List OutTxn),
      generateRecurringInstances fuel t startD endD = some (.ok out) := by
  have hne : r.pattern.isEmpty = false := by
    cases hp : r.pattern.isEmpty
    · rfl
    · exfalso
      have hnil : r.pattern = [] := List.isEmpty_iff.mp hp
      rw [hnil] at hparse
      exact Except.noConfusion hparse
  obtain ⟨tid, tam, tde, tcat, tdate, trec, tty, tinst, tpar⟩ := t
  dsimp only at hrec
  subst hrec
  have hunf : ∀ fuel : Nat,
      generateRecurringInstances fuel ⟨tid, tam, tde, tcat, tdate, some r, tty, tinst, tpar⟩
        startD endD =
      (if r.pattern.isEmpty then some (.ok []) else
        match parseRecurringPattern r.pattern with
        | .error e => some (.error e)
        | .ok p =>
          (genLoop p ⟨tid, tam, tde, tcat, tdate, some r, tty, tinst, tpar⟩
            (match r.untilDate with
             | some u => jsMkDate u.y (u.m - 1) u.d
             | none => jsMkDate endD.y (endD.m - 1) endD.d)
            (jsMkDate startD.y (startD.m - 1) startD.d)
            (jsMkDate endD.y (endD.m - 1) endD.d)
            fuel
            (genStart p (jsMkDate tdate.y (tdate.m - 1) tdate.d)
              (jsMkDate startD.y (startD.m - 1) startD.d)) [] []).map Except.ok) :=
    fun _ => rfl
  have hfinal : ∀ (parent : OutTxn) (U S E ST : CDate), ST.Canon →
      ∃ (fuel : Nat) (out : List OutTxn),
        (genLoop pat parent U S E fuel ST [] []).map Except.ok =
          (some (Except.ok out) : Option (Except Str (List OutTxn))) := by
    intro parent U S E ST hst
    obtain ⟨F, l, hl⟩ := genLoop_term_exists pat parent U S E ST hint hst
    exact ⟨F, l, by rw [hl]; rfl⟩
  have hcond : (r.pattern.isEmpty = true) = False := by simp [hne]
  simp only [hunf, hcond, if_false, hparse]
  exact hfinal _ _ _ _ _ (genStart_canon _ _ _ (jsMkDate_canon _ _ _))

/-- The transaction of the C2 witness: a parsed rule with interval 2. -/
def biweeklyTxn2 : OutTxn :=
  { id := "w2".data, amount := 7, description := "pay".data, category := none,
    date := ⟨2025, 2, 3⟩, recurring := some ⟨"every 2 week on monday".data, none⟩,
    ttype := "income".data, isRecurringInstance := false, recurringParentId := none }

/-- C2 witness: the hypotheses of the amended claim hold for a concrete
parsed rule (interval 2), and its expansion terminates. -/
theorem claimC2_witness :
    ∃ (fuel : Nat) (out : List OutTxn),
      generateRecurringInstances fuel biweeklyTxn2 ⟨2025, 2, 1⟩ ⟨2025, 3, 10⟩ =
        some (.ok out) :=
  claimC2_amended biweeklyTxn2 ⟨2025, 2, 1⟩ ⟨2025, 3, 10⟩
    ⟨"every 2 week on monday".data, none⟩
    { interval := 2, unit := .week, dayOfWeek := some "monday".data, dayOfMonth := none }
    rfl (by decide) (by decide)

/-- Loop invariant: every emitted instance has its date inside
`[rangeStart, rangeEnd]` and not above the loop bound. -/
theorem genLoop_containment (pat : Rule) (parent : OutTxn) (untilD rS rE : CDate) :
    ∀ (fuel : Nat) (cur : CDate) (added : List CDate) (acc out : List OutTxn),
      genLoop pat parent untilD rS rE fuel cur added acc = some out →
      (∀ i ∈ acc, rS.le i.date ∧ i.date.le rE ∧ i.date.le untilD) →
      ∀ i ∈ out, rS.le i.date ∧ i.date.le rE ∧ i.date.le untilD := by
  intro fuel
  induction fuel with
  | zero =>
      intro cur added acc out h hacc
      unfold genLoop at h
      by_cases hle : cur.le untilD
      · rw [if_pos hle] at h
        exact Option.noConfusion h
      · rw [if_neg hle] at h
        cases h
        exact hacc
  | succ n ih =>
      intro cur added acc out h hacc
      unfold genLoop at h
      by_cases hle : cur.le untilD
      · rw [if_pos hle] at h
        dsimp only at h
        by_cases hcond : rS.le cur ∧ cur.le rE ∧ cur ∉ added
        · rw [if_pos hcond] at h
          refine ih _ _ _ _ h ?_
          intro i hi
          rcases List.mem_append.mp hi with hi' | hi'
          · exact hacc i hi'
          · rcases List.mem_singleton.mp hi' with rfl
            exact ⟨hcond.1, hcond.2.1, hle⟩
        · rw [if_neg hcond] at h
          exact ih _ _ _ _ h hacc
      · rw [if_neg hle] at h
        cases h
        exact hacc

/-- C7: for every call of the expander that returns, every emitted instance
date `d` satisfies `rangeStart ≤ d ≤ rangeEnd`, and `d ≤ until` whenever the
transaction carries an `until` bound. -/
theorem claimC7_window_containment (fuel : Nat) (t : OutTxn) (startD endD : CDate)
    (out : List OutTxn) (hs : startD.Canon) (he : endD.Canon)
    (hu : ∀ r u, t.recurring = some r → r.untilDate = some u → u.Canon)
    (h : generateRecurringInstances fuel t startD endD = some (.ok out)) :
    ∀ i ∈ out, startD.le i.date ∧ i.date.le endD ∧
      ∀ r u, t.recurring = some r → r.untilDate = some u → i.date.le u := by
  obtain ⟨tid, tam, tde, tcat, tdate, trec, tty, tinst, tpar⟩ := t
  dsimp only at hu h ⊢
  cases trec with
  | none =>
      have h' : (some (Except.ok []) : Option (Except Str (List OutTxn))) =
          some (.ok out) := h
      cases (Except.ok.inj (Option.some.inj h')).symm
      intro i hi
      exact absurd hi (List.not_mem_nil i)
  | some r =>
      obtain ⟨rp, ru⟩ := r
      cases ru with
      | none =>
          have hunf : generateRecurringInstances fuel
              ⟨tid, tam, tde, tcat, tdate, some ⟨rp, none⟩, tty, tinst, tpar⟩ startD endD =
              (if rp.isEmpty then some (.ok []) else
                match parseRecurringPattern rp with
                | .error e => some (.error e)
                | .ok p =>
                  (genLoop p ⟨tid, tam, tde, tcat, tdate, some ⟨rp, none⟩, tty, tinst, tpar⟩
                    (jsMkDate endD.y (endD.m - 1) endD.d)
                    (jsMkDate startD.y (startD.m - 1) startD.d)
                    (jsMkDate endD.y (endD.m - 1) endD.d)
                    fuel
                    (genStart p (jsMkDate tdate.y (tdate.m - 1) tdate.d)
                      (jsMkDate startD.y (startD.m - 1) startD.d)) [] []).map Except.ok) := rfl
          rw [hunf, jsMkDate_id startD hs, jsMkDate_id endD he] at h
          by_cases hemp : rp.isEmpty = true
          · rw [if_pos hemp] at h
            cases (Except.ok.inj (Option.some.inj h)).symm
            intro i hi
            exact absurd hi (List.not_mem_nil i)
          · rw [if_neg hemp] at h
            cases hp : parseRecurringPattern rp with
            | error e =>
                rw [hp] at h
                exact Except.noConfusion (Option.some.inj h)
            | ok pat =>
                rw [hp] at h
                obtain ⟨l, hl, hok⟩ := Option.map_eq_some'.mp h
                cases Except.ok.inj hok
                intro i hi
                have hc := genLoop_containment pat _ _ _ _ fuel _ [] [] _ hl
                  (fun j hj => absurd hj (List.not_mem_nil j)) i hi
                exact ⟨hc.1, hc.2.1, fun r' u' hr' hu' => by
                  cases Option.some.inj hr'
                  exact Option.noConfusion hu'⟩
      | some u =>
          have hcanu : u.Canon := hu ⟨rp, some u⟩ u rfl rfl
          have hunf : generateRecurringInstances fuel
              ⟨tid, tam, tde, tcat, tdate, some ⟨rp, some u⟩, tty, tinst, tpar⟩ startD endD =
              (if rp.isEmpty then some (.ok []) else
                match parseRecurringPattern rp with
                | .error e => some (.error e)
                | .ok p =>
                  (genLoop p ⟨tid, tam, tde, tcat, tdate, some ⟨rp, some u⟩, tty, tinst, tpar⟩
                    (jsMkDate u.y (u.m - 1) u.d)
                    (jsMkDate startD.y (startD.m - 1) startD.d)
                    (jsMkDate endD.y (endD.m - 1) endD.d)
                    fuel
                    (genStart p (jsMkDate tdate.y (tdate.m - 1) tdate.d)
                      (jsMkDate startD.y (startD.m - 1) startD.d)) [] []).map Except.ok) := rfl
          rw [hunf, jsMkDate_id startD hs, jsMkDate_id endD he, jsMkDate_id u hcanu] at h
          by_cases hemp : rp.isEmpty = true
          · rw [if_pos hemp] at h
            cases (Except.ok.inj (Option.some.inj h)).symm
            intro i hi
            exact absurd hi (List.not_mem_nil i)
          · rw [if_neg hemp] at h
            cases hp : parseRecurringPattern rp with
            | error e =>
                rw [hp] at h
                exact Except.noConfusion (Option.some.inj h)
            | ok pat =>
                rw [hp] at h
                obtain ⟨l, hl, hok⟩ := Option.map_eq_some'.mp h
                cases Except.ok.inj hok
                intro i hi
                have hc := genLoop_containment pat _ u _ _ fuel _ [] [] _ hl
                  (fun j hj => absurd hj (List.not_mem_nil j)) i hi
                exact ⟨hc.1, hc.2.1, fun r' u' hr' hu' => by
                  cases Option.some.inj hr'
                  cases Option.some.inj hu'
                  exact hc.2.2⟩

/-- The transaction of the C7 witness: a biweekly rule bounded by an `until`
date of 2025-02-20. -/
def untilTxn : OutTxn :=
  { id := "w7".data, amount := 3, description := "net".data, category := none,
    date := ⟨2025, 2, 3⟩,
    recurring := some ⟨"every 2 week on monday".data, some ⟨2025, 2, 20⟩⟩,
    ttype := "income".data, isRecurringInstance := false, recurringParentId := none }

/-- The first instance the expander emits for `untilTxn`. -/
def untilOut1 : OutTxn :=
  { untilTxn with
      id := "w7-2025-02-03".data
      date := ⟨2025, 2, 3⟩
      isRecurringInstance := true
      recurringParentId := some "w7".data }

/-- The second instance the expander emits for `untilTxn`. -/
def untilOut2 : OutTxn :=
  { untilTxn with
      id := "w7-2025-02-17".data
      date := ⟨2025, 2, 17⟩
      isRecurringInstance := true
      recurringParentId := some "w7".data }

/-- The instances the expander emits for `untilTxn` over
[2025-02-01, 2025-03-10]. -/
def untilTxnOut : List OutTxn := [untilOut1, untilOut2]

/-- C7 witness: containment holds on a concrete expansion with an `until`
bound (only 2025-02-03 and 2025-02-17 are emitted, both at most 2025-02-20). -/
theorem claimC7_witness :
    (CDate.le ⟨2025, 2, 1⟩ untilOut1.date ∧ untilOut1.date.le ⟨2025, 3, 10⟩ ∧
      untilOut1.date.le ⟨2025, 2, 20⟩) ∧
    (CDate.le ⟨2025, 2, 1⟩ untilOut2.date ∧ untilOut2.date.le ⟨2025, 3, 10⟩ ∧
      untilOut2.date.le ⟨2025, 2, 20⟩) := by
  have h := claimC7_window_containment 10 untilTxn ⟨2025, 2, 1⟩ ⟨2025, 3, 10⟩ untilTxnOut
    (by decide) (by decide)
    (fun r u hr hu2 => by
      cases Option.some.inj hr
      cases Option.some.inj hu2
      decide)
    rfl
  have h1 := h untilOut1 (List.mem_cons_self _ _)
  have h2 := h untilOut2 (List.mem_cons_of_mem _ (List.mem_cons_self _ _))
  exact ⟨⟨h1.1, h1.2.1,
      h1.2.2 ⟨"every 2 week on monday".data, some ⟨2025, 2, 20⟩⟩ ⟨2025, 2, 20⟩ rfl rfl⟩,
    ⟨h2.1, h2.2.1,
      h2.2.2 ⟨"every 2 week on monday".data, some ⟨2025, 2, 20⟩⟩ ⟨2025, 2, 20⟩ rfl rfl⟩⟩

/-- C5: for a valid weekday name, the POST-handler anchor adjustment returns
the first date on or after the proposed date whose weekday matches: a shift
of 0 when the proposed date already matches (anchor = proposed date), and of
at most 6 days forward otherwise — never backward, and never skipping an
earlier matching date. -/
theorem claimC5_week_anchor (c : CDate) (hc : c.Canon) (w : Str) (hw : w ∈ weekdays) :
    ∃ k : Nat, k ≤ 6 ∧ resolveWeekAnchor c w = addDays c k ∧
      getDay (resolveWeekAnchor c w) = weekdayIndex w ∧
      (∀ j : Nat, j < k → getDay (addDays c j) ≠ weekdayIndex w) ∧
      (getDay c = weekdayIndex w → resolveWeekAnchor c w = c) := by
  have hT : 0 ≤ weekdayIndex w ∧ weekdayIndex w ≤ 6 := by
    fin_cases hw <;> decide
  have hG := getDay_bounds c
  have hres : resolveWeekAnchor c w =
      jsSetDate c (c.d + (if weekdayIndex w - getDay c < 0
        then weekdayIndex w - getDay c + 7 else weekdayIndex w - getDay c)) := by
    unfold resolveWeekAnchor
    rw [jsMkDate_id c hc]
  set dta := (if weekdayIndex w - getDay c < 0
    then weekdayIndex w - getDay c + 7 else weekdayIndex w - getDay c) with hdta
  have hval : (weekdayIndex w - getDay c < 0 ∧ dta = weekdayIndex w - getDay c + 7) ∨
      (0 ≤ weekdayIndex w - getDay c ∧ dta = weekdayIndex w - getDay c) := by
    rw [hdta]
    split
    · exact Or.inl ⟨by assumption, rfl⟩
    · exact Or.inr ⟨by omega, rfl⟩
  have hb : 0 ≤ dta ∧ dta ≤ 6 := by rcases hval with ⟨h1, h2⟩ | ⟨h1, h2⟩ <;> omega
  have hcast : c.d + dta = c.d + (dta.toNat : Int) := by omega
  have heq : resolveWeekAnchor c w = addDays c dta.toNat := by
    rw [hres, hcast, jsSetDate_add c hc]
  refine ⟨dta.toNat, by omega, heq, ?_, ?_, ?_⟩
  · rw [heq, getDay_addDays c hc dta.toNat]
    rcases hval with ⟨h1, h2⟩ | ⟨h1, h2⟩ <;> omega
  · intro j hj hcontra
    rw [getDay_addDays c hc j] at hcontra
    rcases hval with ⟨h1, h2⟩ | ⟨h1, h2⟩ <;> omega
  · intro h0
    have hz : dta.toNat = 0 := by rcases hval with ⟨h1, h2⟩ | ⟨h1, h2⟩ <;> omega
    rw [heq, hz]
    rfl

/-- C5 witness: the anchor adjustment at 2025-02-01 (a Saturday) for
`monday` satisfies all the clauses of the claim. -/
theorem claimC5_witness :
    ∃ k : Nat, k ≤ 6 ∧
      resolveWeekAnchor ⟨2025, 2, 1⟩ "monday".data = addDays ⟨2025, 2, 1⟩ k ∧
      getDay (resolveWeekAnchor ⟨2025, 2, 1⟩ "monday".data) = weekdayIndex "monday".data ∧
      (∀ j : Nat, j < k → getDay (addDays ⟨2025, 2, 1⟩ j) ≠ weekdayIndex "monday".data) ∧
      (getDay ⟨2025, 2, 1⟩ = weekdayIndex "monday".data →
        resolveWeekAnchor ⟨2025, 2, 1⟩ "monday".data = ⟨2025, 2, 1⟩) :=
  claimC5_week_anchor ⟨2025, 2, 1⟩ (by decide) "monday".data (by decide)

/-- For a day argument between 1 and 28, `new Date` never rolls the day:
every month is long enough. -/
theorem jsMkDate_small (y m d : Int) (h1 : 1 ≤ d) (h2 : d ≤ 28) :
    jsMkDate y m d = ⟨(y * 12 + m) / 12, (y * 12 + m) % 12 + 1, d⟩ := by
  unfold jsMkDate
  dsimp only
  rw [if_pos h1]
  have hb := daysInMonth_bounds ((y * 12 + m) / 12) ((y * 12 + m) % 12 + 1)
  rw [addDays_within_month _ _ _ (by omega)]
  congr 1
  omega

/-- Loop invariant for month-day rules with `dayOfMonth ≤ 28`: the current
date's day-of-month never changes, so neither do the emitted instances'. -/
theorem genLoop_monthday_day (pat : Rule) (parent : OutTxn) (untilD rS rE : CDate)
    (dom : Int) (hdom1 : 1 ≤ dom) (hdom28 : dom ≤ 28) (hunit : pat.unit = .monthday) :
    ∀ (fuel : Nat) (cur : CDate) (added : List CDate) (acc out : List OutTxn),
      cur.d = dom →
      genLoop pat parent untilD rS rE fuel cur added acc = some out →
      (∀ i ∈ acc, i.date.d = dom) → ∀ i ∈ out, i.date.d = dom := by
  have hstep : ∀ cur : CDate, cur.d = dom → (stepDate pat cur).d = dom := by
    intro cur hcd
    have h7 : stepDate pat cur = jsMkDate cur.y (cur.m - 1 + 1) cur.d := by
      unfold stepDate jsSetMonth; rw [hunit]
    rw [h7, jsMkDate_small _ _ _ (by omega) (by omega)]
    exact hcd
  intro fuel
  induction fuel with
  | zero =>
      intro cur added acc out hcd h hacc
      unfold genLoop at h
      by_cases hle : cur.le untilD
      · rw [if_pos hle] at h
        exact Option.noConfusion h
      · rw [if_neg hle] at h
        cases h
        exact hacc
  | succ n ih =>
      intro cur added acc out hcd h hacc
      unfold genLoop at h
      by_cases hle : cur.le untilD
      · rw [if_pos hle] at h
        dsimp only at h
        by_cases hcond : rS.le cur ∧ cur.le rE ∧ cur ∉ added
        · rw [if_pos hcond] at h
          refine ih _ _ _ _ (hstep cur hcd) h ?_
          intro i hi
          rcases List.mem_append.mp hi with hi' | hi'
          · exact hacc i hi'
          · rcases List.mem_singleton.mp hi' with rfl
            exact hcd
        · rw [if_neg hcond] at h
          exact ih _ _ _ _ (hstep cur hcd) h hacc
      · rw [if_neg hle] at h
        cases h
        exact hacc

/-- For a month-day rule with `dayOfMonth ≤ 28`, the pre-loop starting date
is on that day of the month. -/
theorem genStart_monthday_day (pat : Rule) (dom : Int) (c0 rS : CDate)
    (hunit : pat.unit = .monthday) (hdomval : pat.dayOfMonth = some dom)
    (hdom1 : 1 ≤ dom) (hdom28 : dom ≤ 28) :
    (genStart pat c0 rS).d = dom := by
  unfold genStart
  rw [if_pos hunit, hdomval]
  dsimp only [Option.getD]
  rw [jsMkDate_small _ _ _ (by omega) (by omega)]
  dsimp only
  split
  · have h7 : jsSetMonth (⟨(c0.y * 12 + (c0.m - 1)) / 12, (c0.y * 12 + (c0.m - 1)) % 12 + 1, dom⟩ : CDate)
        ((⟨(c0.y * 12 + (c0.m - 1)) / 12, (c0.y * 12 + (c0.m - 1)) % 12 + 1, dom⟩ : CDate).m - 1 + 1) =
        jsMkDate ((c0.y * 12 + (c0.m - 1)) / 12) ((c0.y * 12 + (c0.m - 1)) % 12 + 1 - 1 + 1) dom := rfl
    rw [h7, jsMkDate_small _ _ _ (by omega) (by omega)]
  · rfl

/-- C4 (amended): the month-day step is `setMonth(getMonth() + 1)` at the
stored day-of-month, which JS rolls over when the target month is shorter
(see the counterexample: `every 31st` yields Mar 3 after February, and the
day drifts for good).  When `dayOfMonth ≤ 28` no month is ever shorter, and
every emitted occurrence falls exactly on `dayOfMonth`. -/
theorem claimC4_amended (fuel : Nat) (t : OutTxn) (startD endD : CDate) (r : RecInfo)
    (pat : Rule) (dom : Int) (out : List OutTxn)
    (hrec : t.recurring = some r) (hparse : parseRecurringPattern r.pattern = .ok pat)
    (hunit : pat.unit = .monthday) (hdomval : pat.dayOfMonth = some dom)
    (hdom1 : 1 ≤ dom) (hdom28 : dom ≤ 28)
    (h : generateRecurringInstances fuel t startD endD = some (.ok out)) :
    ∀ i ∈ out, i.date.d = dom := by
  have hne : r.pattern.isEmpty = false := by
    cases hp : r.pattern.isEmpty
    · rfl
    · exfalso
      have hnil : r.pattern = [] := List.isEmpty_iff.mp hp
      rw [hnil] at hparse
      exact Except.noConfusion hparse
  obtain ⟨tid, tam, tde, tcat, tdate, trec, tty, tinst, tpar⟩ := t
  dsimp only at hrec
  subst hrec
  obtain ⟨rp, ru⟩ := r
  dsimp only at hne hparse
  cases ru with
  | none =>
      have hunf : generateRecurringInstances fuel
          ⟨tid, tam, tde, tcat, tdate, some ⟨rp, none⟩, tty, tinst, tpar⟩ startD endD =
          (if rp.isEmpty then some (.ok []) else
            match parseRecurringPattern rp with
            | .error e => some (.error e)
            | .ok p =>
              (genLoop p ⟨tid, tam, tde, tcat, tdate, some ⟨rp, none⟩, tty, tinst, tpar⟩
                (jsMkDate endD.y (endD.m - 1) endD.d)
                (jsMkDate startD.y (startD.m - 1) startD.d)
                (jsMkDate endD.y (endD.m - 1) endD.d)
                fuel
                (genStart p (jsMkDate tdate.y (tdate.m - 1) tdate.d)
                  (jsMkDate startD.y (startD.m - 1) startD.d)) [] []).map Except.ok) := rfl
      rw [hunf, if_neg (by rw [hne]; exact Bool.false_ne_true), hparse] at h
      obtain ⟨l, hl, hok⟩ := Option.map_eq_some'.mp h
      cases Except.ok.inj hok
      exact genLoop_monthday_day pat _ _ _ _ dom hdom1 hdom28 hunit fuel _ [] [] _
        (genStart_monthday_day pat dom _ _ hunit hdomval hdom1 hdom28) hl
        (fun j hj => absurd hj (List.not_mem_nil j))
  | some u =>
      have hunf : generateRecurringInstances fuel
          ⟨tid, tam, tde, tcat, tdate, some ⟨rp, some u⟩, tty, tinst, tpar⟩ startD endD =
          (if rp.isEmpty then some (.ok []) else
            match parseRecurringPattern rp with
            | .error e => some (.error e)
            | .ok p =>
              (genLoop p ⟨tid, tam, tde, tcat, tdate, some ⟨rp, some u⟩, tty, tinst, tpar⟩
                (jsMkDate u.y (u.m - 1) u.d)
                (jsMkDate startD.y (startD.m - 1) startD.d)
                (jsMkDate endD.y (endD.m - 1) endD.d)
                fuel
                (genStart p (jsMkDate tdate.y (tdate.m - 1) tdate.d)
                  (jsMkDate startD.y (startD.m - 1) startD.d)) [] []).map Except.ok) := rfl
      rw [hunf, if_neg (by rw [hne]; exact Bool.false_ne_true), hparse] at h
      obtain ⟨l, hl, hok⟩ := Option.map_eq_some'.mp h
      cases Except.ok.inj hok
      exact genLoop_monthday_day pat _ _ _ _ dom hdom1 hdom28 hunit fuel _ [] [] _
        (genStart_monthday_day pat dom _ _ hunit hdomval hdom1 hdom28) hl
        (fun j hj => absurd hj (List.not_mem_nil j))

/-- The transaction of the C4 witness: `every 15th of the month`. -/
def monthday15Txn : OutTxn :=
  { id := "m15".data, amount := 4, description := "loan".data, category := none,
    date := ⟨2025, 1, 10⟩, recurring := some ⟨"every 15th of the month".data, none⟩,
    ttype := "income".data, isRecurringInstance := false, recurringParentId := none }

/-- First emitted instance of `monthday15Txn` over [2025-01-01, 2025-02-28]. -/
def monthday15Out1 : OutTxn :=
  { monthday15Txn with
      id := "m15-2025-01-15".data
      date := ⟨2025, 1, 15⟩
      isRecurringInstance := true
      recurringParentId := some "m15".data }

/-- Second emitted instance of `monthday15Txn` over [2025-01-01, 2025-02-28]. -/
def monthday15Out2 : OutTxn :=
  { monthday15Txn with
      id := "m15-2025-02-15".data
      date := ⟨2025, 2, 15⟩
      isRecurringInstance := true
      recurringParentId := some "m15".data }

/-- C4 witness: all hypotheses of the amended claim hold for
`every 15th of the month`, and both emitted occurrences are on the 15th. -/
theorem claimC4_witness :
    monthday15Out1.date.d = 15 ∧ monthday15Out2.date.d = 15 := by
  have h := claimC4_amended 10 monthday15Txn ⟨2025, 1, 1⟩ ⟨2025, 2, 28⟩
    ⟨"every 15th of the month".data, none⟩
    { interval := 1, unit := .monthday, dayOfWeek := none, dayOfMonth := some 15 }
    15 [monthday15Out1, monthday15Out2] rfl (by decide) rfl rfl (by decide) (by decide) rfl
  exact ⟨h monthday15Out1 (List.mem_cons_self _ _),
    h monthday15Out2 (List.mem_cons_of_mem _ (List.mem_cons_self _ _))⟩

/-- The stored transaction of the C3 counterexample. -/
def c3Txn : Txn :=
  { id := "a".data, amount := 5, description := "x".data, category := none,
    date := ⟨2025, 1, 10⟩, recurring := none }

/-- The one-month store of the C3 counterexample. -/
def c3Store : Store := [("2025-01".data, ⟨[c3Txn], []⟩)]

/-- The update request of the C3 counterexample: valid fields, but a
recurring pattern matching neither regex. -/
def c3Body : TxnBody :=
  { ttype := "income".data, amount := 5, description := "x".data, category := none,
    date := ⟨2025, 1, 10⟩, recurring := some ⟨"garbage".data, none⟩ }

/-- The store after the C3 counterexample update: the invalid pattern is
stored verbatim. -/
def c3Store' : Store :=
  [("2025-01".data,
    ⟨[{ id := "a".data, amount := 5, description := "x".data, category := none,
        date := ⟨2025, 1, 10⟩, recurring := some ⟨"garbage".data, none⟩ }], []⟩)]

/-- C3 (counterexample): `"garbage"` matches neither grammar, yet the PUT
handler accepts the update and stores the invalid pattern verbatim — the
write is neither rejected nor the store left unchanged. -/
theorem claimC3_counterexample :
    parseRecurringPattern "garbage".data = .error "Invalid recurring pattern".data ∧
    putTransaction c3Store "a".data c3Body = .ok c3Store' ∧
    c3Store' ≠ c3Store :=
  ⟨rfl, rfl, by decide⟩

/-- C3 (amended): the POST handler rejects a recurring pattern matching
neither regex with an HTTP 400 before touching the store; the PUT handler
performs no pattern validation at all — whenever its basic field validation
passes and the id is found, the update succeeds whatever the pattern. -/
theorem claimC3_amended :
    (∀ (store : Store) (body : TxnBody) (newId : Str) (r : RecInfo),
       body.recurring = some r → r.pattern ≠ [] →
       scanA r.pattern = none → scanB r.pattern = none →
       ∃ e, postTransaction store body newId = .error e ∧ e.status = 400) ∧
    (∀ (store : Store) (id : Str) (body : TxnBody) (s' : Store),
       body.ttype.isEmpty = false → (body.amount == 0) = false →
       body.description.isEmpty = false →
       (body.ttype != "income".data && body.ttype != "expense".data) = false →
       (body.ttype == "expense".data && catFalsy body.category) = false →
       putStore store id body = some s' →
       putTransaction store id body = .ok s') := by
  constructor
  · intro store body newId r hrec hne hsA hsB
    have hni : r.pattern.isEmpty = false := by
      cases hp : r.pattern.isEmpty
      · rfl
      · exact absurd (List.isEmpty_iff.mp hp) hne
    unfold postTransaction
    split_ifs with h1 h2 h3 h4
    all_goals try exact ⟨_, rfl, rfl⟩
    all_goals (exfalso; rw [hrec] at h4; simp [hni, hsA, hsB] at h4)
  · intro store id body s' h1 h2 h3 h4 h5 hput
    unfold putTransaction
    rw [if_neg (by rw [h1, h2, h3]; decide)]
    rw [if_neg (by rw [h4]; decide)]
    rw [if_neg (by rw [h5]; decide)]
    rw [hput]

/-- C3 witness: the create-rejection holds at a concrete request carrying
the pattern `"garbage"`. -/
theorem claimC3_witness :
    ∃ e, postTransaction c3Store c3Body "new".data = .error e ∧ e.status = 400 :=
  claimC3_amended.1 c3Store c3Body "new".data ⟨"garbage".data, none⟩
    rfl (by decide) rfl rfl

/-- `takeWhile` keeps the whole list when every element satisfies the
predicate. -/
theorem takeWhile_all {p : Char → Bool} : ∀ l : Str, (∀ c ∈ l, p c = true) →
    l.takeWhile p = l := by
  intro l
  induction l with
  | nil => intro _; rfl
  | cons c cs ih =>
      intro hall
      simp only [List.takeWhile]
      rw [hall c (List.mem_cons_self c cs)]
      rw [ih (fun x hx => hall x (List.mem_cons_of_mem c hx))]

/-- Members of a `takeWhile` satisfy the predicate. -/
theorem mem_takeWhile {p : Char → Bool} : ∀ (l : Str) (c : Char),
    c ∈ l.takeWhile p → p c = true := by
  intro l
  induction l with
  | nil => intro c hc; exact absurd hc (List.not_mem_nil c)
  | cons x xs ih =>
      intro c hc
      simp only [List.takeWhile] at hc
      cases hp : p x with
      | false => rw [hp] at hc; exact absurd hc (List.not_mem_nil c)
      | true =>
          rw [hp] at hc
          rcases List.mem_cons.mp hc with rfl | hc'
          · exact hp
          · exact ih c hc'

/-- The id actually compared against stored ids by the DELETE handler is
always the part of the requested id before its first dash. -/
theorem delete_parentId_eq (id : Str) :
    (if id.contains '-' then splitFirstDash id else id) = splitFirstDash id := by
  by_cases hc : id.contains '-' = true
  · rw [if_pos hc]
  · rw [if_neg hc]
    have hc' : id.contains '-' = false := by
      cases hcc : id.contains '-'
      · rfl
      · exact absurd hcc hc
    have hall : ∀ c ∈ id, (c != '-') = true := by
      intro c hcm
      simp only [List.contains, List.elem_eq_mem, decide_eq_false_iff_not] at hc'
      simp only [bne, Bool.not_eq_false']
      cases he : c == '-' with
      | false => rfl
      | true =>
          exfalso
          have : c = '-' := by exact_mod_cast beq_iff_eq.mp he
          exact hc' (this ▸ hcm)
    exact (takeWhile_all id hall).symm

/-- `removeFirst` fails exactly when no element matches. -/
theorem removeFirst_none_iff (p : Txn → Bool) : ∀ ts : List Txn,
    removeFirst p ts = none ↔ ∀ t ∈ ts, p t = false := by
  intro ts
  induction ts with
  | nil => simp [removeFirst]
  | cons t ts ih =>
      cases hp : p t with
      | true =>
          simp only [removeFirst, if_pos hp, List.forall_mem_cons]
          constructor
          · intro h; exact Option.noConfusion h
          · intro h
            rw [hp] at h
            exact absurd h.1 (by decide)
      | false =>
          have hstep : removeFirst p (t :: ts) =
              (match removeFirst p ts with
               | none => none
               | some ts2 => some (t :: ts2)) := by
            show (if p t = true then some ts
              else (match removeFirst p ts with
                    | none => none
                    | some ts2 => some (t :: ts2))) = _
            rw [hp]
            simp
          rw [hstep]
          simp only [List.forall_mem_cons]
          cases hr : removeFirst p ts with
          | none =>
              show (none : Option (List Txn)) = none ↔ _
              constructor
              · intro _
                exact ⟨hp, ih.mp hr⟩
              · intro _
                rfl
          | some ts2 =>
              show some (t :: ts2) = none ↔ _
              constructor
              · intro h; exact Option.noConfusion h
              · intro h
                have hcontr := ih.mpr h.2
                rw [hr] at hcontr
                exact Option.noConfusion hcontr

/-- `delMonth` fails exactly when the month holds no matching transaction. -/
theorem delMonth_none_iff (md : MonthData) (reqId parentId : Str) :
    delMonth md reqId parentId = none ↔
      (∀ t ∈ md.income, delMatches reqId parentId t = false) ∧
      (∀ t ∈ md.expenses, delMatches reqId parentId t = false) := by
  unfold delMonth
  cases hi : removeFirst (delMatches reqId parentId) md.income with
  | some inc2 =>
      constructor
      · intro h; exact Option.noConfusion h
      · intro h
        have := (removeFirst_none_iff _ md.income).mpr h.1
        rw [hi] at this
        exact Option.noConfusion this
  | none =>
      have h1 := (removeFirst_none_iff _ md.income).mp hi
      cases he : removeFirst (delMatches reqId parentId) md.expenses with
      | some exp2 =>
          constructor
          · intro h; exact Option.noConfusion h
          · intro h
            have := (removeFirst_none_iff _ md.expenses).mpr h.2
            rw [he] at this
            exact Option.noConfusion this
      | none =>
          have h2 := (removeFirst_none_iff _ md.expenses).mp he
          constructor
          · intro _
            exact ⟨h1, h2⟩
          · intro _
            rfl

/-- `delStore` fails exactly when no month holds a matching transaction. -/
theorem delStore_none_iff (reqId parentId : Str) : ∀ store : Store,
    delStore store reqId parentId = none ↔
      ∀ kv ∈ store, (∀ t ∈ kv.2.income, delMatches reqId parentId t = false) ∧
        (∀ t ∈ kv.2.expenses, delMatches reqId parentId t = false) := by
  intro store
  induction store with
  | nil => simp [delStore]
  | cons kv rest ih =>
      obtain ⟨k, md⟩ := kv
      simp only [delStore, List.forall_mem_cons]
      cases hm : delMonth md reqId parentId with
      | some md2 =>
          constructor
          · intro h; exact Option.noConfusion h
          · intro h
            have := (delMonth_none_iff md reqId parentId).mpr h.1
            rw [hm] at this
            exact Option.noConfusion this
      | none =>
          have h1 := (delMonth_none_iff md reqId parentId).mp hm
          cases hr : delStore rest reqId parentId with
          | none =>
              show (none : Option Store) = none ↔ _
              constructor
              · intro _
                exact ⟨h1, ih.mp hr⟩
              · intro _
                rfl
          | some rest2 =>
              show some ((k, md) :: rest2) = none ↔ _
              constructor
              · intro h; exact Option.noConfusion h
              · intro h
                have := ih.mpr h.2
                rw [hr] at this
                exact Option.noConfusion this

/-- The DELETE match condition, in propositional form. -/
theorem delMatches_true_iff (reqId parentId : Str) (t : Txn) :
    delMatches reqId parentId t = true ↔ (t.id = parentId ∨ t.id = reqId) := by
  unfold delMatches
  simp [Bool.or_eq_true, beq_iff_eq]

/-- C9: the DELETE handler removes a stored transaction exactly when some
stored id equals the requested id or the part of the requested id before its
first dash; consequently, when every stored id is a 36-character
dash-containing UUID, a request with a derived recurring-instance id
`parentId ++ "-" ++ dateStr` matches nothing: the handler answers 404 and
produces no changed store. -/
theorem claimC9_delete :
    (∀ (store : Store) (id : Str),
       (∃ s', deleteTransaction store id = .ok s') ↔
         ∃ kv ∈ store,
           (∃ t ∈ kv.2.income, t.id = splitFirstDash id ∨ t.id = id) ∨
           (∃ t ∈ kv.2.expenses, t.id = splitFirstDash id ∨ t.id = id)) ∧
    (∀ (store : Store) (pid suffix : Str),
       (∀ kv ∈ store,
          (∀ t ∈ kv.2.income, t.id.length = 36 ∧ t.id.contains '-' = true) ∧
          (∀ t ∈ kv.2.expenses, t.id.length = 36 ∧ t.id.contains '-' = true)) →
       pid.length = 36 →
       deleteTransaction store (pid ++ '-' :: suffix) =
         .error ⟨404, "Transaction not found".data⟩) := by
  have hfalse_iff : ∀ (reqId parentId : Str) (t : Txn),
      delMatches reqId parentId t = false ↔ ¬(t.id = parentId ∨ t.id = reqId) := by
    intro reqId parentId t
    constructor
    · intro hf hor
      have := (delMatches_true_iff reqId parentId t).mpr hor
      rw [hf] at this
      exact absurd this (by decide)
    · intro hnor
      cases hdm : delMatches reqId parentId t
      · rfl
      · exact absurd ((delMatches_true_iff reqId parentId t).mp hdm) hnor
  constructor
  · intro store id
    have hunf : deleteTransaction store id =
        (match delStore store id (splitFirstDash id) with
         | none => .error ⟨404, "Transaction not found".data⟩
         | some store' => .ok store') := by
      unfold deleteTransaction
      rw [delete_parentId_eq id]
    rw [hunf]
    cases hd : delStore store id (splitFirstDash id) with
    | none =>
        constructor
        · intro ⟨s', hs'⟩
          exact Except.noConfusion hs'
        · intro ⟨kv, hkv, hex⟩
          exfalso
          have hall := (delStore_none_iff id (splitFirstDash id) store).mp hd kv hkv
          rcases hex with ⟨t, ht, hor⟩ | ⟨t, ht, hor⟩
          · exact (hfalse_iff _ _ t).mp (hall.1 t ht) hor
          · exact (hfalse_iff _ _ t).mp (hall.2 t ht) hor
    | some s' =>
        constructor
        · intro _
          by_contra hno
          have hall : ∀ kv ∈ store,
              (∀ t ∈ kv.2.income, delMatches id (splitFirstDash id) t = false) ∧
              (∀ t ∈ kv.2.expenses, delMatches id (splitFirstDash id) t = false) := by
            intro kv hkv
            constructor
            · intro t ht
              refine (hfalse_iff _ _ t).mpr (fun hor => hno ?_)
              exact ⟨kv, hkv, Or.inl ⟨t, ht, hor⟩⟩
            · intro t ht
              refine (hfalse_iff _ _ t).mpr (fun hor => hno ?_)
              exact ⟨kv, hkv, Or.inr ⟨t, ht, hor⟩⟩
          have := (delStore_none_iff id (splitFirstDash id) store).mpr hall
          rw [hd] at this
          exact Option.noConfusion this
        · intro _
          exact ⟨s', rfl⟩
  · intro store pid suffix hall hlen
    have hnomatch : ∀ kv ∈ store,
        (∀ t ∈ kv.2.income,
          delMatches (pid ++ '-' :: suffix) (splitFirstDash (pid ++ '-' :: suffix)) t = false) ∧
        (∀ t ∈ kv.2.expenses,
          delMatches (pid ++ '-' :: suffix) (splitFirstDash (pid ++ '-' :: suffix)) t = false) := by
      intro kv hkv
      have hid : ∀ t : Txn, t.id.length = 36 → t.id.contains '-' = true →
          delMatches (pid ++ '-' :: suffix) (splitFirstDash (pid ++ '-' :: suffix)) t = false := by
        intro t h36 hdash
        refine (hfalse_iff _ _ t).mpr ?_
        intro hor
        rcases hor with heq | heq
        · -- t.id is the dash-free prefix, but contains a dash
          have hmem : ('-' : Char) ∈ t.id := by
            simp only [List.contains, List.elem_eq_mem, decide_eq_true_eq] at hdash
            exact hdash
          rw [heq] at hmem
          have := mem_takeWhile _ _ hmem
          exact absurd this (by decide)
        · -- lengths differ: 36 vs 37 + |suffix|
          have : t.id.length = pid.length + (suffix.length + 1) := by
            rw [heq]
            simp [List.length_append]
          omega
      exact ⟨fun t ht => hid t ((hall kv hkv).1 t ht).1 ((hall kv hkv).1 t ht).2,
             fun t ht => hid t ((hall kv hkv).2 t ht).1 ((hall kv hkv).2 t ht).2⟩
    have hnone := (delStore_none_iff (pid ++ '-' :: suffix)
      (splitFirstDash (pid ++ '-' :: suffix)) store).mpr hnomatch
    unfold deleteTransaction
    rw [delete_parentId_eq (pid ++ '-' :: suffix)]
    dsimp only
    rw [hnone]

/-- The stored UUID-keyed transaction of the C9 witness. -/
def uuidTxn : Txn :=
  { id := "123e4567-e89b-12d3-a456-426614174000".data, amount := 9,
    description := "rent".data, category := none, date := ⟨2025, 1, 15⟩,
    recurring := some ⟨"every 1 month".data, none⟩ }

/-- The one-month store of the C9 witness. -/
def uuidStore : Store := [("2025-01".data, ⟨[], [uuidTxn]⟩)]

/-- C9 witness: deleting by the derived instance id
`{uuid}-2025-02-15` answers 404 on a store whose only id is that UUID. -/
theorem claimC9_witness :
    deleteTransaction uuidStore
      ("123e4567-e89b-12d3-a456-426614174000".data ++ '-' :: "2025-02-15".data) =
      .error ⟨404, "Transaction not found".data⟩ :=
  claimC9_delete.2 uuidStore "123e4567-e89b-12d3-a456-426614174000".data
    "2025-02-15".data (by decide) (by decide)

/-- The only error `parseRecurringPattern` ever produces. -/
theorem parse_error_msg (p : Str) (e : Str)
    (h : parseRecurringPattern p = .error e) : e = "Invalid recurring pattern".data := by
  unfold parseRecurringPattern at h
  cases hA : scanA p with
  | some v =>
      rw [hA] at h
      obtain ⟨ds, u, wd⟩ := v
      exact Except.noConfusion h
  | none =>
      rw [hA] at h
      cases hB : scanB p with
      | some ds =>
          rw [hB] at h
          exact Except.noConfusion h
      | none =>
          rw [hB] at h
          exact (Except.error.inj h).symm

/-- The only error the expander ever produces. -/
theorem gen_error_msg (fuel : Nat) (t : OutTxn) (startD endD : CDate) (e : Str)
    (h : generateRecurringInstances fuel t startD endD = some (.error e)) :
    e = "Invalid recurring pattern".data := by
  obtain ⟨tid, tam, tde, tcat, tdate, trec, tty, tinst, tpar⟩ := t
  cases trec with
  | none =>
      have h2 : (some (Except.ok []) : Option (Except Str (List OutTxn))) =
          some (.error e) := h
      exact Except.noConfusion (Option.some.inj h2)
  | some r =>
      obtain ⟨rp, ru⟩ := r
      have hrest : ∀ untilArg : CDate,
          (if rp.isEmpty then (some (.ok []) : Option (Except Str (List OutTxn))) else
            match parseRecurringPattern rp with
            | .error e2 => some (.error e2)
            | .ok p =>
              (genLoop p ⟨tid, tam, tde, tcat, tdate, some ⟨rp, ru⟩, tty, tinst, tpar⟩
                untilArg
                (jsMkDate startD.y (startD.m - 1) startD.d)
                (jsMkDate endD.y (endD.m - 1) endD.d)
                fuel
                (genStart p (jsMkDate tdate.y (tdate.m - 1) tdate.d)
                  (jsMkDate startD.y (startD.m - 1) startD.d)) [] []).map Except.ok) =
            some (.error e) →
          e = "Invalid recurring pattern".data := by
        intro untilArg hh
        by_cases hemp : rp.isEmpty = true
        · rw [if_pos hemp] at hh
          exact Except.noConfusion (Option.some.inj hh)
        · rw [if_neg hemp] at hh
          cases hp : parseRecurringPattern rp with
          | error e2 =>
              rw [hp] at hh
              have he2 : Except.error e2 = (Except.error e : Except Str (List OutTxn)) :=
                Option.some.inj hh
              rw [← Except.error.inj he2]
              exact parse_error_msg rp e2 hp
          | ok pat =>
              rw [hp] at hh
              obtain ⟨l, _, hok⟩ := Option.map_eq_some'.mp hh
              exact Except.noConfusion hok
      cases ru with
      | none => exact hrest (jsMkDate endD.y (endD.m - 1) endD.d) h
      | some u => exact hrest (jsMkDate u.y (u.m - 1) u.d) h

/-- If a transaction of the list expands to the invalid-pattern error, the
expansion loop over the whole list can only return that error. -/
theorem expandAll_error (fuel : Nat) (startD endD : CDate) (tb : OutTxn)
    (hgen : generateRecurringInstances fuel tb startD endD =
      some (.error "Invalid recurring pattern".data)) :
    ∀ (ts : List OutTxn), tb ∈ ts → ∀ res, expandAll fuel startD endD ts = some res →
      res = .error "Invalid recurring pattern".data := by
  intro ts
  induction ts with
  | nil =>
      intro htb
      exact absurd htb (List.not_mem_nil tb)
  | cons t2 ts2 ih =>
      intro htb res h
      unfold expandAll at h
      cases hg : generateRecurringInstances fuel t2 startD endD with
      | none => rw [hg] at h; exact Option.noConfusion h
      | some exr =>
          rw [hg] at h
          cases exr with
          | error e2 =>
              have hres : Except.error e2 = res := Option.some.inj h
              rw [← hres]
              rw [gen_error_msg fuel t2 startD endD e2 hg]
          | ok is =>
              rcases List.mem_cons.mp htb with rfl | htb2
              · rw [hgen] at hg
                exact Except.noConfusion (Option.some.inj hg)
              · cases hrec2 : expandAll fuel startD endD ts2 with
                | none => rw [hrec2] at h; exact Option.noConfusion h
                | some res2 =>
                    rw [hrec2] at h
                    cases res2 with
                    | error e3 =>
                        have hres : Except.error e3 = res := Option.some.inj h
                        rw [← hres]
                        exact ih htb2 (.error e3) hrec2
                    | ok rest =>
                        exact Except.noConfusion (ih htb2 (.ok rest) hrec2)

/-- Recurring transactions of the store end up (tagged) in
`recurringTransactions`, whatever their date. -/
theorem mem_allRecurring (store : Store) (kv : Str × MonthData) (hkv : kv ∈ store)
    (t : Txn) (hp : hasRecurringPattern t = true) :
    (t ∈ kv.2.income → tagTxn t "income".data ∈ allRecurring store) ∧
    (t ∈ kv.2.expenses → tagTxn t "expense".data ∈ allRecurring store) := by
  constructor
  · intro ht
    unfold allRecurring
    rw [List.mem_flatten]
    refine ⟨_, List.mem_map_of_mem _ hkv, ?_⟩
    exact List.mem_append_left _
      (List.mem_map_of_mem _ (List.mem_filter.mpr ⟨ht, hp⟩))
  · intro ht
    unfold allRecurring
    rw [List.mem_flatten]
    refine ⟨_, List.mem_map_of_mem _ hkv, ?_⟩
    exact List.mem_append_right _
      (List.mem_map_of_mem _ (List.mem_filter.mpr ⟨ht, hp⟩))

/-- A poisoned recurring list makes `getTransactionsInRange` fail with the
invalid-pattern error whenever it finishes at all. -/
theorem getTx_error (fuel : Nat) (store : Store) (startD endD : CDate) (tb : OutTxn)
    (htb : tb ∈ allRecurring store)
    (hgen : generateRecurringInstances fuel tb startD endD =
      some (.error "Invalid recurring pattern".data)) :
    ∀ res, getTransactionsInRange fuel store startD endD = some res →
      res = .error "Invalid recurring pattern".data := by
  intro res h
  unfold getTransactionsInRange at h
  cases hx : expandAll fuel startD endD (allRecurring store) with
  | none => rw [hx] at h; exact Option.noConfusion h
  | some exr =>
      rw [hx] at h
      cases exr with
      | error e2 =>
          have hres : Except.error e2 = res := Option.some.inj h
          rw [← hres]
          exact expandAll_error fuel startD endD tb hgen _ htb (.error e2) hx
      | ok insts =>
          exact Except.noConfusion
            (expandAll_error fuel startD endD tb hgen _ htb (.ok insts) hx)

/-- A stored transaction whose pattern matches neither regex makes the
expander throw `Invalid recurring pattern` (without consuming fuel). -/
theorem gen_invalid (fuel : Nat) (t : Txn) (ty : Str) (startD endD : CDate)
    (r : RecInfo) (hrec : t.recurring = some r) (hne : r.pattern ≠ [])
    (hsA : scanA r.pattern = none) (hsB : scanB r.pattern = none) :
    generateRecurringInstances fuel (tagTxn t ty) startD endD =
      some (.error "Invalid recurring pattern".data) := by
  obtain ⟨tid, tam, tde, tcat, tdate, trec⟩ := t
  have hrec2 : trec = some r := hrec
  subst hrec2
  obtain ⟨rp, ru⟩ := r
  have hne2 : rp ≠ [] := hne
  have hsA2 : scanA rp = none := hsA
  have hsB2 : scanB rp = none := hsB
  have hparse : parseRecurringPattern rp = .error "Invalid recurring pattern".data := by
    unfold parseRecurringPattern
    rw [hsA2, hsB2]
  have hemp : rp.isEmpty = false := by
    cases rp with
    | nil => exact absurd rfl hne2
    | cons a as => rfl
  unfold generateRecurringInstances
  dsimp only [tagTxn]
  rw [hemp, if_neg Bool.false_ne_true, hparse]

/-- C10: if any stored transaction's recurring pattern matches neither regex,
then every range query over every window propagates the thrown
`Invalid recurring pattern` error: `getTransactionsInRange` never returns a
transaction list, and the range listing, range totals and range export
endpoints all answer 500 for the whole store instead of skipping the bad
transaction. -/
theorem claimC10_poisoned_range (fuel : Nat) (store : Store) (startD endD : CDate)
    (kv : Str × MonthData) (t : Txn) (r : RecInfo)
    (hkv : kv ∈ store) (ht : t ∈ kv.2.income ∨ t ∈ kv.2.expenses)
    (hrec : t.recurring = some r) (hne : r.pattern ≠ [])
    (hsA : scanA r.pattern = none) (hsB : scanB r.pattern = none) :
    (∀ res, getTransactionsInRange fuel store startD endD = some res →
      res = .error "Invalid recurring pattern".data) ∧
    (∀ res, rangeEndpoint fuel store startD endD = some res →
      res = .error ⟨500, "Failed to fetch transactions".data⟩) ∧
    (∀ res, totalsRangeEndpoint fuel store startD endD = some res →
      res = .error ⟨500, "Failed to calculate totals".data⟩) ∧
    (∀ res, exportRangeEndpoint fuel store startD endD = some res →
      res = .error ⟨500, "Failed to export transactions".data⟩) := by
  have hp : hasRecurringPattern t = true := by
    unfold hasRecurringPattern
    rw [hrec]
    dsimp only
    cases hrp : r.pattern with
    | nil => exact absurd hrp hne
    | cons a as => rfl
  have hmain : ∀ res, getTransactionsInRange fuel store startD endD = some res →
      res = .error "Invalid recurring pattern".data := by
    rcases ht with ht | ht
    · exact getTx_error fuel store startD endD (tagTxn t "income".data)
        ((mem_allRecurring store kv hkv t hp).1 ht)
        (gen_invalid fuel t "income".data startD endD r hrec hne hsA hsB)
    · exact getTx_error fuel store startD endD (tagTxn t "expense".data)
        ((mem_allRecurring store kv hkv t hp).2 ht)
        (gen_invalid fuel t "expense".data startD endD r hrec hne hsA hsB)
  refine ⟨hmain, ?_, ?_, ?_⟩
  · intro res h
    unfold rangeEndpoint at h
    cases hg : getTransactionsInRange fuel store startD endD with
    | none => rw [hg] at h; exact Option.noConfusion h
    | some exr =>
        rw [hg] at h
        cases exr with
        | error e2 => exact (Option.some.inj h).symm
        | ok l => exact Except.noConfusion (hmain (.ok l) hg)
  · intro res h
    unfold totalsRangeEndpoint at h
    cases hg : getTransactionsInRange fuel store startD endD with
    | none => rw [hg] at h; exact Option.noConfusion h
    | some exr =>
        rw [hg] at h
        cases exr with
        | error e2 => exact (Option.some.inj h).symm
        | ok l => exact Except.noConfusion (hmain (.ok l) hg)
  · intro res h
    unfold exportRangeEndpoint at h
    cases hg : getTransactionsInRange fuel store startD endD with
    | none => rw [hg] at h; exact Option.noConfusion h
    | some exr =>
        rw [hg] at h
        cases exr with
        | error e2 => exact (Option.some.inj h).symm
        | ok l => exact Except.noConfusion (hmain (.ok l) hg)

/-- A stored transaction with the pattern `"whenever"` (matches neither regex). -/
def badPatTxn : Txn :=
  { id := "b1".data, amount := 5, description := "gym".data, category := none,
    date := ⟨2025, 1, 10⟩, recurring := some ⟨"whenever".data, none⟩ }

/-- A store holding `badPatTxn` (and nothing else). -/
def badPatStore : Store := [("2025-01".data, ⟨[badPatTxn], []⟩)]

/-- C10 witness: with `"whenever"` stored, the range query throws and all
three range endpoints answer 500 over the window 2025. -/
theorem claimC10_witness :
    getTransactionsInRange 1 badPatStore ⟨2025, 1, 1⟩ ⟨2025, 12, 31⟩ =
      some (.error "Invalid recurring pattern".data) ∧
    rangeEndpoint 1 badPatStore ⟨2025, 1, 1⟩ ⟨2025, 12, 31⟩ =
      some (.error ⟨500, "Failed to fetch transactions".data⟩) ∧
    totalsRangeEndpoint 1 badPatStore ⟨2025, 1, 1⟩ ⟨2025, 12, 31⟩ =
      some (.error ⟨500, "Failed to calculate totals".data⟩) ∧
    exportRangeEndpoint 1 badPatStore ⟨2025, 1, 1⟩ ⟨2025, 12, 31⟩ =
      some (.error ⟨500, "Failed to export transactions".data⟩) := by
  have h := claimC10_poisoned_range 1 badPatStore ⟨2025, 1, 1⟩ ⟨2025, 12, 31⟩
    ("2025-01".data, ⟨[badPatTxn], []⟩) badPatTxn ⟨"whenever".data, none⟩
    (by decide) (Or.inl (by decide)) rfl (by decide) (by decide) (by decide)
  refine ⟨?_, ?_, ?_, ?_⟩
  · exact Eq.trans rfl (congrArg some (h.1 (.error "Invalid recurring pattern".data) rfl))
  · exact Eq.trans rfl
      (congrArg some (h.2.1 (.error ⟨500, "Failed to fetch transactions".data⟩) rfl))
  · exact Eq.trans rfl
      (congrArg some (h.2.2.1 (.error ⟨500, "Failed to calculate totals".data⟩) rfl))
  · exact Eq.trans rfl
      (congrArg some (h.2.2.2 (.error ⟨500, "Failed to export transactions".data⟩) rfl))

/-- Insertion permutes. -/
theorem insertByDateDesc_perm (x : OutTxn) (l : List OutTxn) :
    (insertByDateDesc x l).Perm (x :: l) := by
  induction l with
  | nil => exact List.Perm.refl _
  | cons y ys ih =>
      unfold insertByDateDesc
      by_cases hle : y.date.le x.date
      · rw [if_pos hle]
      · rw [if_neg hle]
        exact (ih.cons y).trans (List.Perm.swap x y ys)

/-- The sort permutes its input. -/
theorem sortByDateDesc_perm (l : List OutTxn) : (sortByDateDesc l).Perm l := by
  induction l with
  | nil => exact List.Perm.refl _
  | cons x xs ih =>
      unfold sortByDateDesc
      exact (insertByDateDesc_perm x (sortByDateDesc xs)).trans (ih.cons x)

/-- Membership is invariant under the sort. -/
theorem mem_sortByDateDesc (x : OutTxn) (l : List OutTxn) :
    x ∈ sortByDateDesc l ↔ x ∈ l :=
  (sortByDateDesc_perm l).mem_iff

/-- Insertion preserves descending order. -/
theorem insertByDateDesc_pairwise (x : OutTxn) (l : List OutTxn)
    (h : l.Pairwise (fun a b => b.date.le a.date)) :
    (insertByDateDesc x l).Pairwise (fun a b => b.date.le a.date) := by
  induction l with
  | nil => exact List.pairwise_singleton _ _
  | cons y ys ih =>
      rw [List.pairwise_cons] at h
      unfold insertByDateDesc
      by_cases hle : y.date.le x.date
      · rw [if_pos hle]
        refine List.pairwise_cons.mpr ⟨?_, List.pairwise_cons.mpr h⟩
        intro z hz
        rcases List.mem_cons.mp hz with rfl | hz2
        · exact hle
        · exact CDate.le_trans (h.1 z hz2) hle
      · rw [if_neg hle]
        refine List.pairwise_cons.mpr ⟨?_, ih h.2⟩
        intro z hz
        rcases List.mem_cons.mp ((insertByDateDesc_perm x ys).mem_iff.mp hz) with rfl | hz2
        · rcases CDate.le_total z.date y.date with h1 | h1
          · exact h1
          · exact absurd h1 hle
        · exact h.1 z hz2

/-- The sort's output is descending by date. -/
theorem sortByDateDesc_pairwise (l : List OutTxn) :
    (sortByDateDesc l).Pairwise (fun a b => b.date.le a.date) := by
  induction l with
  | nil => exact List.Pairwise.nil
  | cons x xs ih =>
      unfold sortByDateDesc
      exact insertByDateDesc_pairwise x _ ih

/-- Everything the loop emits is a `mkInstance`, hence flagged as a
recurring instance. -/
theorem genLoop_instances (pat : Rule) (parent : OutTxn) (untilD rS rE : CDate) :
    ∀ (fuel : Nat) (cur : CDate) (added : List CDate) (acc out : List OutTxn),
      genLoop pat parent untilD rS rE fuel cur added acc = some out →
      (∀ i ∈ acc, i.isRecurringInstance = true) →
      ∀ i ∈ out, i.isRecurringInstance = true := by
  intro fuel
  induction fuel with
  | zero =>
      intro cur added acc out h hacc
      unfold genLoop at h
      by_cases hle : cur.le untilD
      · rw [if_pos hle] at h
        exact Option.noConfusion h
      · rw [if_neg hle] at h
        cases h
        exact hacc
  | succ n ih =>
      intro cur added acc out h hacc
      unfold genLoop at h
      by_cases hle : cur.le untilD
      · rw [if_pos hle] at h
        dsimp only at h
        by_cases hcond : rS.le cur ∧ cur.le rE ∧ cur ∉ added
        · rw [if_pos hcond] at h
          refine ih _ _ _ _ h ?_
          intro i hi
          rcases List.mem_append.mp hi with hi2 | hi2
          · exact hacc i hi2
          · rcases List.mem_singleton.mp hi2 with rfl
            rfl
        · rw [if_neg hcond] at h
          exact ih _ _ _ _ h hacc
      · rw [if_neg hle] at h
        cases h
        exact hacc

/-- Every transaction returned by the expander is flagged as a recurring
instance. -/
theorem gen_instances (fuel : Nat) (t : OutTxn) (startD endD : CDate)
    (is2 : List OutTxn)
    (h : generateRecurringInstances fuel t startD endD = some (.ok is2)) :
    ∀ i ∈ is2, i.isRecurringInstance = true := by
  unfold generateRecurringInstances at h
  cases hr : t.recurring with
  | none =>
      rw [hr] at h
      cases (Except.ok.inj (Option.some.inj h)).symm
      intro i hi
      exact absurd hi (List.not_mem_nil i)
  | some r =>
      rw [hr] at h
      dsimp only at h
      by_cases hemp : r.pattern.isEmpty = true
      · rw [if_pos hemp] at h
        cases (Except.ok.inj (Option.some.inj h)).symm
        intro i hi
        exact absurd hi (List.not_mem_nil i)
      · rw [if_neg hemp] at h
        cases hp : parseRecurringPattern r.pattern with
        | error e =>
            rw [hp] at h
            exact Except.noConfusion (Option.some.inj h)
        | ok pat =>
            rw [hp] at h
            dsimp only at h
            obtain ⟨l, hl, hok⟩ := Option.map_eq_some'.mp h
            cases Except.ok.inj hok
            exact genLoop_instances pat _ _ _ _ fuel _ [] [] _ hl
              (fun j hj => absurd hj (List.not_mem_nil j))

/-- Every transaction in a successful expansion of a list is flagged as a
recurring instance. -/
theorem expandAll_instances (fuel : Nat) (startD endD : CDate) :
    ∀ (ts : List OutTxn) (is2 : List OutTxn),
      expandAll fuel startD endD ts = some (.ok is2) →
      ∀ i ∈ is2, i.isRecurringInstance = true := by
  intro ts
  induction ts with
  | nil =>
      intro is2 h
      cases (Except.ok.inj (Option.some.inj h)).symm
      intro i hi
      exact absurd hi (List.not_mem_nil i)
  | cons t2 ts2 ih =>
      intro is2 h
      unfold expandAll at h
      cases hg : generateRecurringInstances fuel t2 startD endD with
      | none => rw [hg] at h; exact Option.noConfusion h
      | some exr =>
          rw [hg] at h
          cases exr with
          | error e2 => exact Except.noConfusion (Option.some.inj h)
          | ok l1 =>
              cases hrec2 : expandAll fuel startD endD ts2 with
              | none => rw [hrec2] at h; exact Option.noConfusion h
              | some res2 =>
                  rw [hrec2] at h
                  cases res2 with
                  | error e3 => exact Except.noConfusion (Option.some.inj h)
                  | ok rest =>
                      cases (Except.ok.inj (Option.some.inj h)).symm
                      intro i hi
                      rcases List.mem_append.mp hi with hi2 | hi2
                      · exact gen_instances fuel t2 startD endD l1 hg i hi2
                      · exact ih rest hrec2 i hi2

/-- Tagging is injective in the transaction and the tag. -/
theorem tagTxn_inj (t t2 : Txn) (ty ty2 : Str) :
    tagTxn t ty = tagTxn t2 ty2 ↔ t = t2 ∧ ty = ty2 := by
  obtain ⟨a1, a2, a3, a4, a5, a6⟩ := t
  obtain ⟨b1, b2, b3, b4, b5, b6⟩ := t2
  simp only [tagTxn, OutTxn.mk.injEq, Txn.mk.injEq]
  tauto

/-- Membership in `allTransactions` (the plain side of the range query):
exactly the stored non-recurring transactions with date in range, tagged. -/
theorem mem_allPlain (store : Store) (startD endD : CDate) (x : OutTxn) :
    x ∈ allPlain store startD endD ↔
      ∃ kv ∈ store,
        (∃ t ∈ kv.2.income, hasRecurringPattern t = false ∧ startD.le t.date ∧
          t.date.le endD ∧ x = tagTxn t "income".data) ∨
        (∃ t ∈ kv.2.expenses, hasRecurringPattern t = false ∧ startD.le t.date ∧
          t.date.le endD ∧ x = tagTxn t "expense".data) := by
  unfold allPlain plainOf
  simp only [List.mem_flatten, List.mem_map]
  constructor
  · rintro ⟨l, ⟨kv, hkv, rfl⟩, hx⟩
    rcases List.mem_append.mp hx with hm | hm
    · obtain ⟨t, htf, rfl⟩ := List.mem_map.mp hm
      obtain ⟨ht, hcond⟩ := List.mem_filter.mp htf
      simp only [Bool.and_eq_true, Bool.not_eq_true', decide_eq_true_eq] at hcond
      exact ⟨kv, hkv, Or.inl ⟨t, ht, hcond.1.1, hcond.1.2, hcond.2, rfl⟩⟩
    · obtain ⟨t, htf, rfl⟩ := List.mem_map.mp hm
      obtain ⟨ht, hcond⟩ := List.mem_filter.mp htf
      simp only [Bool.and_eq_true, Bool.not_eq_true', decide_eq_true_eq] at hcond
      exact ⟨kv, hkv, Or.inr ⟨t, ht, hcond.1.1, hcond.1.2, hcond.2, rfl⟩⟩
  · rintro ⟨kv, hkv, ⟨t, ht, hrec0, hs, he, rfl⟩ | ⟨t, ht, hrec0, hs, he, rfl⟩⟩
    · refine ⟨_, ⟨kv, hkv, rfl⟩, List.mem_append.mpr (Or.inl ?_)⟩
      exact List.mem_map_of_mem _ (List.mem_filter.mpr ⟨ht, by simp [hrec0, hs, he]⟩)
    · refine ⟨_, ⟨kv, hkv, rfl⟩, List.mem_append.mpr (Or.inr ?_)⟩
      exact List.mem_map_of_mem _ (List.mem_filter.mpr ⟨ht, by simp [hrec0, hs, he]⟩)

/-- C8: whenever the range query returns a list, (i) that list is sorted in
descending date order, and (ii) a stored non-recurring transaction appears in
it (tagged with its side) exactly when its date lies in
`[rangeStart, rangeEnd]` inclusive. -/
theorem claimC8_plain_and_sorted (fuel : Nat) (store : Store)
    (startD endD : CDate) (res : List OutTxn)
    (hres : getTransactionsInRange fuel store startD endD = some (.ok res)) :
    res.Pairwise (fun a b => b.date.le a.date) ∧
    ∀ kv ∈ store, ∀ t : Txn, hasRecurringPattern t = false →
      (t ∈ kv.2.income →
        (tagTxn t "income".data ∈ res ↔ startD.le t.date ∧ t.date.le endD)) ∧
      (t ∈ kv.2.expenses →
        (tagTxn t "expense".data ∈ res ↔ startD.le t.date ∧ t.date.le endD)) := by
  unfold getTransactionsInRange at hres
  cases hx : expandAll fuel startD endD (allRecurring store) with
  | none => rw [hx] at hres; exact Option.noConfusion hres
  | some exr =>
      rw [hx] at hres
      cases exr with
      | error e => exact Except.noConfusion (Option.some.inj hres)
      | ok insts =>
          cases (Except.ok.inj (Option.some.inj hres)).symm
          refine ⟨sortByDateDesc_pairwise _, ?_⟩
          intro kv hkv t hrec0
          have hmem : ∀ ty : Str,
              tagTxn t ty ∈ sortByDateDesc (allPlain store startD endD ++ insts) ↔
              tagTxn t ty ∈ allPlain store startD endD := by
            intro ty
            rw [mem_sortByDateDesc, List.mem_append]
            constructor
            · rintro (hm | hm)
              · exact hm
              · have hflag := expandAll_instances fuel startD endD _ insts hx _ hm
                exact absurd hflag (by simp [tagTxn])
            · exact Or.inl
          constructor
          · intro ht
            rw [hmem, mem_allPlain]
            constructor
            · rintro ⟨kv2, hkv2, ⟨t2, ht2, hr2, hs2, he2, heq⟩ |
                ⟨t2, ht2, hr2, hs2, he2, heq⟩⟩
              · obtain ⟨rfl, -⟩ := (tagTxn_inj t t2 _ _).mp heq
                exact ⟨hs2, he2⟩
              · exact absurd ((tagTxn_inj t t2 _ _).mp heq).2 (by decide)
            · intro hd
              exact ⟨kv, hkv, Or.inl ⟨t, ht, hrec0, hd.1, hd.2, rfl⟩⟩
          · intro ht
            rw [hmem, mem_allPlain]
            constructor
            · rintro ⟨kv2, hkv2, ⟨t2, ht2, hr2, hs2, he2, heq⟩ |
                ⟨t2, ht2, hr2, hs2, he2, heq⟩⟩
              · exact absurd ((tagTxn_inj t t2 _ _).mp heq).2 (by decide)
              · obtain ⟨rfl, -⟩ := (tagTxn_inj t t2 _ _).mp heq
                exact ⟨hs2, he2⟩
            · intro hd
              exact ⟨kv, hkv, Or.inr ⟨t, ht, hrec0, hd.1, hd.2, rfl⟩⟩

/-- An in-window plain stored transaction for the C8 witness. -/
def c8In : Txn :=
  { id := "p1".data, amount := 3, description := "coffee".data, category := none,
    date := ⟨2025, 1, 5⟩, recurring := none }

/-- An out-of-window plain stored transaction for the C8 witness. -/
def c8Out : Txn :=
  { id := "p2".data, amount := 4, description := "tea".data, category := none,
    date := ⟨2024, 12, 31⟩, recurring := none }

/-- The two-month store of the C8 witness. -/
def c8Store : Store :=
  [("2024-12".data, ⟨[], [c8Out]⟩), ("2025-01".data, ⟨[c8In], []⟩)]

/-- C8 witness: over the window January 2025 the result is sorted descending,
contains the in-window plain transaction and omits the out-of-window one. -/
theorem claimC8_witness :
    ([tagTxn c8In "income".data] : List OutTxn).Pairwise (fun a b => b.date.le a.date) ∧
    (tagTxn c8In "income".data ∈ ([tagTxn c8In "income".data] : List OutTxn) ↔
      CDate.le ⟨2025, 1, 1⟩ c8In.date ∧ c8In.date.le ⟨2025, 1, 31⟩) ∧
    (tagTxn c8Out "expense".data ∈ ([tagTxn c8In "income".data] : List OutTxn) ↔
      CDate.le ⟨2025, 1, 1⟩ c8Out.date ∧ c8Out.date.le ⟨2025, 1, 31⟩) := by
  have h := claimC8_plain_and_sorted 1 c8Store ⟨2025, 1, 1⟩ ⟨2025, 1, 31⟩
    [tagTxn c8In "income".data] rfl
  exact ⟨h.1,
    (h.2 ("2025-01".data, ⟨[c8In], []⟩) (by decide) c8In rfl).1 (by decide),
    (h.2 ("2024-12".data, ⟨[], [c8Out]⟩) (by decide) c8Out rfl).2 (by decide)⟩

/-- `stripLit` succeeds exactly on strings with the literal as prefix. -/
theorem stripLit_eq_some : ∀ (p l r : Str), stripLit p l = some r ↔ l = p ++ r := by
  intro p
  induction p with
  | nil =>
      intro l r
      unfold stripLit
      exact ⟨fun h => Option.some.inj h, fun h => by subst h; rfl⟩
  | cons x xs ih =>
      intro l r
      cases l with
      | nil =>
          unfold stripLit
          exact ⟨fun h => Option.noConfusion h, fun h => List.noConfusion h⟩
      | cons c cs =>
          unfold stripLit
          by_cases hc : c = x
          · rw [if_pos hc]
            subst hc
            constructor
            · intro h
              rw [(ih cs r).mp h, List.cons_append]
            · intro h
              obtain ⟨-, h2⟩ := List.cons.inj h
              exact (ih cs r).mpr h2
          · rw [if_neg hc]
            constructor
            · intro h
              exact Option.noConfusion h
            · intro h
              exact absurd (List.cons.inj h).1 hc

/-- `stripLit` strips its own literal. -/
theorem stripLit_self (p r : Str) : stripLit p (p ++ r) = some r :=
  (stripLit_eq_some p (p ++ r) r).mpr rfl

/-- `takeWhile`/`dropWhile` on a run of satisfying characters followed by a
failing one split exactly at the boundary. -/
theorem takeWhile_append_cons {p : Char → Bool} :
    ∀ (ds : Str) (c : Char) (tail : Str), (∀ x ∈ ds, p x = true) → p c = false →
      (ds ++ c :: tail).takeWhile p = ds ∧ (ds ++ c :: tail).dropWhile p = c :: tail := by
  intro ds
  induction ds with
  | nil =>
      intro c tail hds hc
      constructor <;> simp [List.takeWhile, List.dropWhile, hc]
  | cons d ds2 ih =>
      intro c tail hds hc
      have hd : p d = true := hds d (List.mem_cons_self d ds2)
      have ih2 := ih c tail (fun x hx => hds x (List.mem_cons_of_mem d hx)) hc
      simp only [List.cons_append, List.takeWhile, List.dropWhile, hd, List.append_eq]
      exact ⟨by rw [ih2.1], by rw [ih2.2]⟩

/-- The unit alternation consumes exactly its own token (the four tokens are
discriminated by their first character). -/
theorem tryUnitTok_of (u : RUnit) (r : Str) (hu : u ≠ .monthday) :
    tryUnitTok (unitTok u ++ r) = some (u, r) := by
  cases u with
  | day => rfl
  | week => rfl
  | month => rfl
  | year => rfl
  | monthday => exact absurd rfl hu

/-- A successful unit match decomposes the input at the matched token. -/
theorem tryUnitTok_some (l r : Str) (u : RUnit)
    (h : tryUnitTok l = some (u, r)) : l = unitTok u ++ r ∧ u ≠ .monthday := by
  unfold tryUnitTok at h
  cases h1 : stripLit "day".data l with
  | some r1 =>
      rw [h1] at h
      obtain ⟨hu, hr⟩ := Prod.mk.injEq .. ▸ Option.some.inj h
      subst hu hr
      exact ⟨(stripLit_eq_some _ _ _).mp h1, by intro hx; exact RUnit.noConfusion hx⟩
  | none =>
      rw [h1] at h
      cases h2 : stripLit "week".data l with
      | some r2 =>
          rw [h2] at h
          obtain ⟨hu, hr⟩ := Prod.mk.injEq .. ▸ Option.some.inj h
          subst hu hr
          exact ⟨(stripLit_eq_some _ _ _).mp h2, by intro hx; exact RUnit.noConfusion hx⟩
      | none =>
          rw [h2] at h
          cases h3 : stripLit "month".data l with
          | some r3 =>
              rw [h3] at h
              obtain ⟨hu, hr⟩ := Prod.mk.injEq .. ▸ Option.some.inj h
              subst hu hr
              exact ⟨(stripLit_eq_some _ _ _).mp h3, by intro hx; exact RUnit.noConfusion hx⟩
          | none =>
              rw [h3] at h
              cases h4 : stripLit "year".data l with
              | some r4 =>
                  rw [h4] at h
                  obtain ⟨hu, hr⟩ := Prod.mk.injEq .. ▸ Option.some.inj h
                  subst hu hr
                  exact ⟨(stripLit_eq_some _ _ _).mp h4,
                    by intro hx; exact RUnit.noConfusion hx⟩
              | none =>
                  rw [h4] at h
                  exact Option.noConfusion h

/-- The regular regex matches at the start of
`every {digits} {unit}{anything}`. -/
theorem tryA_of (ds : Str) (u : RUnit) (rest : Str)
    (hne : ds ≠ []) (hdig : ∀ c ∈ ds, isDigitCh c = true) (hu : u ≠ .monthday) :
    (tryA ("every ".data ++ (ds ++ ' ' :: (unitTok u ++ rest)))).isSome = true := by
  have hsplit := takeWhile_append_cons ds ' ' (unitTok u ++ rest) hdig rfl
  have hemp : ds.isEmpty = false := by
    cases ds with
    | nil => exact absurd rfl hne
    | cons a as => rfl
  unfold tryA
  rw [stripLit_self]
  try dsimp only
  rw [hsplit.1, hsplit.2, hemp, if_neg Bool.false_ne_true]
  split
  next r3 heq =>
    obtain ⟨-, hr3⟩ := List.cons.inj heq
    rw [← hr3, tryUnitTok_of u rest hu]
    clear hsplit heq hr3 hemp hdig hne hu
    try dsimp only
    cases hon : stripLit " on ".data (match rest with | 's' :: t => t | _ => rest) with
    | none => rfl
    | some r6 =>
        try dsimp only
        by_cases hws : (r6.takeWhile isWordCh).isEmpty = true
        · rw [if_pos hws]; rfl
        · rw [if_neg hws]; rfl
  next hco =>
    exact absurd rfl (hco (unitTok u ++ rest))

/-- A successful match of the regular regex decomposes the input as
`every {digits} {unit}{anything}`. -/
theorem tryA_inv (l : Str) (v : Str × RUnit × Option Str) (h : tryA l = some v) :
    ∃ (ds : Str) (u : RUnit) (rest : Str),
      l = "every ".data ++ (ds ++ ' ' :: (unitTok u ++ rest)) ∧
      ds ≠ [] ∧ (∀ c ∈ ds, isDigitCh c = true) ∧ u ≠ .monthday := by
  unfold tryA at h
  cases h1 : stripLit "every ".data l with
  | none => rw [h1] at h; exact Option.noConfusion h
  | some r1 =>
      rw [h1] at h
      dsimp only at h
      by_cases hemp : (r1.takeWhile isDigitCh).isEmpty = true
      · rw [if_pos hemp] at h
        exact Option.noConfusion h
      · rw [if_neg hemp] at h
        split at h
        · rename_i r3 heq
          cases ht : tryUnitTok r3 with
          | none => rw [ht] at h; exact Option.noConfusion h
          | some ur =>
              obtain ⟨u, r4⟩ := ur
              obtain ⟨hr3, hu⟩ := tryUnitTok_some r3 r4 u ht
              refine ⟨r1.takeWhile isDigitCh, u, r4, ?_, ?_, ?_, hu⟩
              · have hr1 : r1 = r1.takeWhile isDigitCh ++ ' ' :: (unitTok u ++ r4) := by
                  conv_lhs => rw [← @List.takeWhile_append_dropWhile _ isDigitCh r1]
                  rw [heq, hr3]
                rw [(stripLit_eq_some _ _ _).mp h1]
                exact congrArg (fun x => "every ".data ++ x) hr1
              · intro hx
                rw [hx] at hemp
                exact hemp rfl
              · exact fun c hc => mem_takeWhile r1 c hc
        · exact Option.noConfusion h

/-- The unanchored scan of the regular regex succeeds exactly when the
anchored matcher succeeds at some position. -/
theorem scanA_isSome_iff : ∀ s : Str,
    (scanA s).isSome = true ↔ ∃ pre suf : Str, s = pre ++ suf ∧ (tryA suf).isSome = true := by
  intro s
  induction s with
  | nil =>
      constructor
      · intro h
        exact Bool.noConfusion h
      · rintro ⟨pre, suf, hdec, hsuf⟩
        obtain ⟨rfl, rfl⟩ := List.append_eq_nil.mp hdec.symm
        exact absurd hsuf (by intro hx; exact Bool.noConfusion hx)
  | cons c cs ih =>
      constructor
      · intro h
        unfold scanA at h
        cases ha : tryA (c :: cs) with
        | some v => exact ⟨[], c :: cs, rfl, by rw [ha]; rfl⟩
        | none =>
            rw [ha] at h
            obtain ⟨pre, suf, hdec, hsuf⟩ := ih.mp h
            exact ⟨c :: pre, suf, by rw [List.cons_append, ← hdec], hsuf⟩
      · rintro ⟨pre, suf, hdec, hsuf⟩
        unfold scanA
        cases ha : tryA (c :: cs) with
        | some v => rfl
        | none =>
            cases pre with
            | nil =>
                rw [List.nil_append] at hdec
                rw [← hdec] at hsuf
                rw [ha] at hsuf
                exact Bool.noConfusion hsuf
            | cons p ps =>
                rw [List.cons_append] at hdec
                obtain ⟨-, hcs⟩ := List.cons.inj hdec
                exact ih.mpr ⟨ps, suf, hcs, hsuf⟩

/-- The ordinal alternation consumes exactly its own suffix token (the four
tokens are discriminated by their first character). -/
theorem tryOrdinal_of (ord r : Str)
    (ho : ord = "st".data ∨ ord = "nd".data ∨ ord = "rd".data ∨ ord = "th".data) :
    tryOrdinal (ord ++ r) = some r := by
  rcases ho with rfl | rfl | rfl | rfl <;> rfl

/-- A successful ordinal match decomposes the input at the matched token. -/
theorem tryOrdinal_some (l r : Str) (h : tryOrdinal l = some r) :
    ∃ ord : Str, l = ord ++ r ∧
      (ord = "st".data ∨ ord = "nd".data ∨ ord = "rd".data ∨ ord = "th".data) := by
  unfold tryOrdinal at h
  cases h1 : stripLit "st".data l with
  | some r1 =>
      rw [h1] at h
      cases Option.some.inj h
      exact ⟨"st".data, (stripLit_eq_some _ _ _).mp h1, Or.inl rfl⟩
  | none =>
      rw [h1] at h
      cases h2 : stripLit "nd".data l with
      | some r2 =>
          rw [h2] at h
          cases Option.some.inj h
          exact ⟨"nd".data, (stripLit_eq_some _ _ _).mp h2, Or.inr (Or.inl rfl)⟩
      | none =>
          rw [h2] at h
          cases h3 : stripLit "rd".data l with
          | some r3 =>
              rw [h3] at h
              cases Option.some.inj h
              exact ⟨"rd".data, (stripLit_eq_some _ _ _).mp h3, Or.inr (Or.inr (Or.inl rfl))⟩
          | none =>
              rw [h3] at h
              exact ⟨"th".data, (stripLit_eq_some _ _ _).mp h, Or.inr (Or.inr (Or.inr rfl))⟩

/-- The month-day regex matches at the start of
`every {digits}{ordinal} of the month{anything}`. -/
theorem tryB_of (ds ord rest : Str)
    (hne : ds ≠ []) (hdig : ∀ c ∈ ds, isDigitCh c = true)
    (ho : ord = "st".data ∨ ord = "nd".data ∨ ord = "rd".data ∨ ord = "th".data) :
    (tryB ("every ".data ++ (ds ++ (ord ++ (" of the month".data ++ rest))))).isSome
      = true := by
  have hoc : isDigitCh (ord.headI) = false := by
    rcases ho with rfl | rfl | rfl | rfl <;> rfl
  have hord : ord ++ (" of the month".data ++ rest) =
      ord.headI :: (ord.tail ++ (" of the month".data ++ rest)) := by
    rcases ho with rfl | rfl | rfl | rfl <;> rfl
  have hsplit := takeWhile_append_cons ds ord.headI
    (ord.tail ++ (" of the month".data ++ rest)) hdig hoc
  have hemp : ds.isEmpty = false := by
    cases ds with
    | nil => exact absurd rfl hne
    | cons a as => rfl
  unfold tryB
  rw [stripLit_self]
  try dsimp only
  rw [hord, hsplit.1, hsplit.2, ← hord, hemp, if_neg Bool.false_ne_true]
  rw [tryOrdinal_of ord (" of the month".data ++ rest) ho]
  try dsimp only
  rw [stripLit_self]
  rfl

/-- A successful match of the month-day regex decomposes the input as
`every {digits}{ordinal} of the month{anything}`. -/
theorem tryB_inv (l : Str) (v : Str) (h : tryB l = some v) :
    ∃ (ds ord rest : Str),
      l = "every ".data ++ (ds ++ (ord ++ (" of the month".data ++ rest))) ∧
      ds ≠ [] ∧ (∀ c ∈ ds, isDigitCh c = true) ∧
      (ord = "st".data ∨ ord = "nd".data ∨ ord = "rd".data ∨ ord = "th".data) := by
  unfold tryB at h
  cases h1 : stripLit "every ".data l with
  | none => rw [h1] at h; exact Option.noConfusion h
  | some r1 =>
      rw [h1] at h
      dsimp only at h
      by_cases hemp : (r1.takeWhile isDigitCh).isEmpty = true
      · rw [if_pos hemp] at h
        exact Option.noConfusion h
      · rw [if_neg hemp] at h
        cases ho : tryOrdinal (r1.dropWhile isDigitCh) with
        | none => rw [ho] at h; exact Option.noConfusion h
        | some r3 =>
            rw [ho] at h
            dsimp only at h
            cases hm : stripLit " of the month".data r3 with
            | none => rw [hm] at h; exact Option.noConfusion h
            | some r4 =>
                rw [hm] at h
                obtain ⟨ord, hr2, hoo⟩ := tryOrdinal_some _ _ ho
                refine ⟨r1.takeWhile isDigitCh, ord, r4, ?_, ?_, ?_, hoo⟩
                · have hr1 : r1 = r1.takeWhile isDigitCh ++
                      (ord ++ (" of the month".data ++ r4)) := by
                    conv_lhs => rw [← @List.takeWhile_append_dropWhile _ isDigitCh r1]
                    rw [hr2, (stripLit_eq_some _ _ _).mp hm]
                  rw [(stripLit_eq_some _ _ _).mp h1]
                  exact congrArg (fun x => "every ".data ++ x) hr1
                · intro hx
                  rw [hx] at hemp
                  exact hemp rfl
                · exact fun c hc => mem_takeWhile r1 c hc

/-- The unanchored scan of the month-day regex succeeds exactly when the
anchored matcher succeeds at some position. -/
theorem scanB_isSome_iff : ∀ s : Str,
    (scanB s).isSome = true ↔ ∃ pre suf : Str, s = pre ++ suf ∧ (tryB suf).isSome = true := by
  intro s
  induction s with
  | nil =>
      constructor
      · intro h
        exact Bool.noConfusion h
      · rintro ⟨pre, suf, hdec, hsuf⟩
        obtain ⟨rfl, rfl⟩ := List.append_eq_nil.mp hdec.symm
        exact absurd hsuf (by intro hx; exact Bool.noConfusion hx)
  | cons c cs ih =>
      constructor
      · intro h
        unfold scanB at h
        cases ha : tryB (c :: cs) with
        | some v => exact ⟨[], c :: cs, rfl, by rw [ha]; rfl⟩
        | none =>
            rw [ha] at h
            obtain ⟨pre, suf, hdec, hsuf⟩ := ih.mp h
            exact ⟨c :: pre, suf, by rw [List.cons_append, ← hdec], hsuf⟩
      · rintro ⟨pre, suf, hdec, hsuf⟩
        unfold scanB
        cases ha : tryB (c :: cs) with
        | some v => rfl
        | none =>
            cases pre with
            | nil =>
                rw [List.nil_append] at hdec
                rw [← hdec] at hsuf
                rw [ha] at hsuf
                exact Bool.noConfusion hsuf
            | cons p ps =>
                rw [List.cons_append] at hdec
                obtain ⟨-, hcs⟩ := List.cons.inj hdec
                exact ih.mpr ⟨ps, suf, hcs, hsuf⟩

/-- Spec-side grammar A, as amended: the string CONTAINS a substring matched
by the unanchored regular regex, i.e. decomposes around
`every {digits} {unit}` with an arbitrary continuation (which subsumes the
optional plural `s` and ` on {word}` clause, since the regex is unanchored
on both sides), the digit run nonempty but otherwise unconstrained. -/
def MatchesRegular (s : Str) : Prop :=
  ∃ (pre ds rest : Str) (u : RUnit),
    s = pre ++ ("every ".data ++ (ds ++ ' ' :: (unitTok u ++ rest))) ∧
    ds ≠ [] ∧ (∀ c ∈ ds, isDigitCh c = true) ∧ u ≠ .monthday

/-- Spec-side grammar B, as amended: the string CONTAINS a substring matched
by the unanchored month-day regex `every {digits}{st|nd|rd|th} of the month`. -/
def MatchesMonthday (s : Str) : Prop :=
  ∃ (pre ds ord rest : Str),
    s = pre ++ ("every ".data ++ (ds ++ (ord ++ (" of the month".data ++ rest)))) ∧
    ds ≠ [] ∧ (∀ c ∈ ds, isDigitCh c = true) ∧
    (ord = "st".data ∨ ord = "nd".data ∨ ord = "rd".data ∨ ord = "th".data)

/-- C1 (amended): `parseRecurringPattern` succeeds exactly on strings that
contain a substring matching one of the two unanchored regexes; every other
string is rejected (with the `Invalid recurring pattern` error, by
`parse_error_msg`). -/
theorem claimC1_amended (s : Str) :
    (∃ p, parseRecurringPattern s = .ok p) ↔ MatchesRegular s ∨ MatchesMonthday s := by
  have hok : (∃ p, parseRecurringPattern s = .ok p) ↔
      ((scanA s).isSome = true ∨ (scanB s).isSome = true) := by
    unfold parseRecurringPattern
    cases hA : scanA s with
    | some v =>
        obtain ⟨ds, u, wd⟩ := v
        constructor
        · intro _
          exact Or.inl rfl
        · intro _
          exact ⟨_, rfl⟩
    | none =>
        cases hB : scanB s with
        | some ds =>
            constructor
            · intro _
              exact Or.inr rfl
            · intro _
              exact ⟨_, rfl⟩
        | none =>
            constructor
            · rintro ⟨p, hp⟩
              exact Except.noConfusion hp
            · rintro (h | h) <;> exact Bool.noConfusion h
  rw [hok]
  constructor
  · rintro (h | h)
    · obtain ⟨pre, suf, rfl, hsuf⟩ := (scanA_isSome_iff s).mp h
      obtain ⟨v, hv⟩ := Option.isSome_iff_exists.mp hsuf
      obtain ⟨ds, u, rest, hdec, hne, hdig, hu⟩ := tryA_inv suf v hv
      exact Or.inl ⟨pre, ds, rest, u, by rw [hdec], hne, hdig, hu⟩
    · obtain ⟨pre, suf, rfl, hsuf⟩ := (scanB_isSome_iff s).mp h
      obtain ⟨v, hv⟩ := Option.isSome_iff_exists.mp hsuf
      obtain ⟨ds, ord, rest, hdec, hne, hdig, ho⟩ := tryB_inv suf v hv
      exact Or.inr ⟨pre, ds, ord, rest, by rw [hdec], hne, hdig, ho⟩
  · rintro (⟨pre, ds, rest, u, hdec, hne, hdig, hu⟩ |
      ⟨pre, ds, ord, rest, hdec, hne, hdig, ho⟩)
    · exact Or.inl ((scanA_isSome_iff s).mpr
        ⟨pre, _, hdec, tryA_of ds u rest hne hdig hu⟩)
    · exact Or.inr ((scanB_isSome_iff s).mpr
        ⟨pre, _, hdec, tryB_of ds ord rest hne hdig ho⟩)

/-- C1 witness: `xx every 12 days on fri!` (junk on both sides, interval 12,
an on-clause with a day unit) parses successfully, via grammar A of the
amended claim. -/
theorem claimC1_witness :
    ∃ p, parseRecurringPattern "xx every 12 days on fri!".data = .ok p :=
  (claimC1_amended "xx every 12 days on fri!".data).mpr
    (Or.inl ⟨"xx ".data, "12".data, "s on fri!".data, .day,
      by decide, by decide, by decide, by decide⟩)
